import Mathlib

/-!
Request building and execution of the wykop.pl API client (`api/api.go`).

A shallow embedding of the request path builder (`Request.BuildPath`,
`Request.BuildURL`, `Request.Build`), of the client pipeline (`Client.Do`), of
the resource accessors (`Promoted`, `Upcoming`, `Index`, `Digs`) and of the
`UserGroup` lookup tables, followed by the properties proved about them.

Go strings are embedded as `String`, Go slices as `List`, Go `int` as `Int`.
Where Go's `net/url` works on the bytes of a string, the string is embedded as
the list of its UTF-8 bytes. A Go `panic` is embedded as `Except.error`
carrying the panic message.
-/

namespace Wykop

/-! ## Go library functions used by the source -/

/-- Go's builtin `len` on a string: the number of bytes. -/
def len (s : String) : Nat := s.utf8ByteSize

/-- Go's `strings.Join(elems, sep)`: the empty string for no element, the
element itself for one, and otherwise the elements with `sep` between each
two neighbours. -/
def Join : List String → String → String
  | [], _ => ""
  | [a], _ => a
  | a :: b :: rest, sep => a ++ sep ++ Join (b :: rest) sep

/-- Go's `strconv.Itoa`: the decimal rendering of an integer, with a leading
minus sign for a negative one. -/
def Itoa (i : Int) : String := toString i

/-! ## Data model -/

/-- Go source: `type Param struct { Name, Value string }`. -/
structure Param where
  Name : String
  Value : String
  deriving DecidableEq, Repr

/-- Go source: `type Request struct`. -/
structure Request where
  RequestMethod : String := ""
  UserAuth : Bool := false
  Resource : String := ""
  Method : String := ""
  MethodParams : List Param := []
  ApiParams : List Param := []
  PostParams : List Param := []
  deriving DecidableEq, Repr

/-- The default of the package-level variable `Scheme`. -/
def Scheme : String := "https"

/-- The first loop of `BuildPath`: every api param appends its name and then
its value to `parts`. -/
def apiParts (ps : List Param) : List String :=
  ps.foldl (fun parts v => parts ++ [v.Name, v.Value]) []

/-- The local `apiParams` of `BuildPath`: the comma-join of `apiParts`. -/
def apiParamsSegment (r : Request) : String :=
  Join (apiParts r.ApiParams) ","

/-- The final value of the local `parts` of `BuildPath`, the list handed to
the last `strings.Join`. -/
def pathParts (r : Request) : List String :=
  let apiParams := apiParamsSegment r
  let parts := [r.Resource, r.Method]
  let parts := r.MethodParams.foldl (fun parts v => parts ++ [v.Value]) parts
  if len apiParams > 0 then parts ++ [apiParams] else parts

/-- Go source: `func (r Request) BuildPath() string`. -/
def Request.BuildPath (r : Request) : String :=
  Join (pathParts r) "/"

/-! ## Go's `net/url` and `net/http`, as far as `Build` reaches them

`Build` hands `BuildURL().String()` to `http.NewRequest`, which parses the
string back with `url.Parse`. Both work on the bytes of a Go string, so this
part embeds a Go string as the list of its bytes; a `String` of the request
becomes its UTF-8 bytes. The functions follow the Go standard library
(`net/url/url.go`, `net/http/request.go`). -/

/-- A Go string as `net/url` reads it: its bytes. -/
abbrev Bytes := List Nat

/-- The UTF-8 bytes of one character. -/
def utf8Char (c : Char) : Bytes :=
  let v := c.toNat
  if v < 0x80 then [v]
  else if v < 0x800 then [0xC0 + v / 0x40, 0x80 + v % 0x40]
  else if v < 0x10000 then [0xE0 + v / 0x1000, 0x80 + v / 0x40 % 0x40, 0x80 + v % 0x40]
  else [0xF0 + v / 0x40000, 0x80 + v / 0x1000 % 0x40, 0x80 + v / 0x40 % 0x40,
        0x80 + v % 0x40]

/-- The bytes of a Go string given as a `String`. -/
def utf8 (s : String) : Bytes := s.data.flatMap utf8Char

/-- An ASCII letter, `'a' <= c && c <= 'z' || 'A' <= c && c <= 'Z'`. -/
def isLetter (c : Nat) : Bool := (97 ≤ c && c ≤ 122) || (65 ≤ c && c ≤ 90)

/-- An ASCII digit, `'0' <= c && c <= '9'`. -/
def isDigit (c : Nat) : Bool := 48 ≤ c && c ≤ 57

/-- The escaping modes of `net/url` that are reached here. -/
inductive encoding where
  | encodePath
  | encodeHost
  | encodeFragment
  deriving DecidableEq, Repr

/-- Go's `shouldEscape(c, mode)` of `net/url` for the three modes above:
letters, digits and `-_.~` are never escaped; the host keeps its sub-delims
and brackets (34 and 39 are the two quote characters); of the reserved bytes
the path escapes only the question mark and the fragment none; the fragment
also keeps `!()*`; everything else is escaped. -/
def shouldEscape (c : Nat) (mode : encoding) : Bool :=
  if isLetter c || isDigit c then false
  else if mode = encoding.encodeHost &&
      ([34, 39] ++ utf8 "!$&()*+,;=:[]<>").contains c then false
  else if (utf8 "-_.~").contains c then false
  else if (utf8 "$&+,/:;=?@").contains c &&
      (mode = encoding.encodePath || mode = encoding.encodeFragment) then
    mode = encoding.encodePath && c = 63
  else if mode = encoding.encodeFragment && (utf8 "!()*").contains c then false
  else true

/-- Go's `upperhex[n]`, the table `"0123456789ABCDEF"`. -/
def upperhex (n : Nat) : Nat := (utf8 "0123456789ABCDEF").getD n 0

/-- Go's `escape(s, mode)` of `net/url`: a byte that should be escaped becomes
`%` and its two upper-case hex digits (`c>>4`, `c&15`). -/
def escape (s : Bytes) (mode : encoding) : Bytes :=
  s.flatMap fun c =>
    if shouldEscape c mode then [37, upperhex (c / 16), upperhex (c % 16)] else [c]

/-- Go's `ishex` of `net/url`. -/
def ishex (c : Nat) : Bool :=
  (48 ≤ c && c ≤ 57) || (97 ≤ c && c ≤ 102) || (65 ≤ c && c ≤ 70)

/-- Go's `unhex` of `net/url`. -/
def unhex (c : Nat) : Nat :=
  if 48 ≤ c && c ≤ 57 then c - 48
  else if 97 ≤ c && c ≤ 102 then c - 97 + 10
  else if 65 ≤ c && c ≤ 70 then c - 65 + 10
  else 0

/-- The errors of `url.Parse` before it wraps them: an invalid control
character, a missing protocol scheme, a colon in the first path segment, an
`EscapeError` with the offending bytes, and the errors of the part of
`parseAuthority` that is left open. -/
inductive URLErr where
  | invalidControl
  | missingScheme
  | colonInFirstSegment
  | escape (s : Bytes)
  | authority (msg : String)
  deriving DecidableEq, Repr

/-- The first loop of Go's `unescape` in the path and fragment modes: every
`%` must be followed by two hex digits, else the error carries the bytes from
the `%` on, at most three. -/
def unescapeCheck : Bytes → Except URLErr Unit
  | [] => .ok ()
  | [c] => if c = 37 then .error (URLErr.escape [c]) else .ok ()
  | [c, h1] => if c = 37 then .error (URLErr.escape [c, h1]) else unescapeCheck [h1]
  | c :: h1 :: h2 :: rest =>
    if c = 37 then
      if ishex h1 && ishex h2 then unescapeCheck rest
      else .error (URLErr.escape [c, h1, h2])
    else unescapeCheck (h1 :: h2 :: rest)

/-- The second loop of Go's `unescape` in the path and fragment modes: `%XY`
becomes the byte `unhex(X)<<4 | unhex(Y)`, every other byte stays. -/
def unescapeDecode : Bytes → Bytes
  | [] => []
  | [c] => [c]
  | [c, h1] => [c, h1]
  | c :: h1 :: h2 :: rest =>
    if c = 37 then (unhex h1 * 16 + unhex h2) :: unescapeDecode rest
    else c :: unescapeDecode (h1 :: h2 :: rest)

/-- Go's `unescape(s, mode)` of `net/url` for `encodePath` and
`encodeFragment`. -/
def unescape (s : Bytes) : Except URLErr Bytes :=
  match unescapeCheck s with
  | .error e => .error e
  | .ok _ => .ok (unescapeDecode s)

/-- The `url.URL` literal of `BuildURL`: the three fields it sets; the others
keep their zero value. -/
structure URL where
  Scheme : String
  Host : String
  Path : String
  deriving DecidableEq, Repr

/-- Go's `url.Userinfo`. -/
structure Userinfo where
  username : Bytes
  password : Bytes
  passwordSet : Bool
  deriving DecidableEq, Repr

/-- A `url.URL` as `url.Parse` fills it. -/
structure ParsedURL where
  Scheme : Bytes := []
  Opaque : Bytes := []
  User : Option Userinfo := none
  Host : Bytes := []
  Path : Bytes := []
  RawPath : Bytes := []
  OmitHost : Bool := false
  ForceQuery : Bool := false
  RawQuery : Bytes := []
  Fragment : Bytes := []
  RawFragment : Bytes := []
  deriving DecidableEq, Repr

/-- A Go `error` value as the package meets it: its own sentinel
`ErrWrongRequest`, the error `http.NewRequest` makes for an invalid method
(`net/http: invalid method %q`), the `*url.Error` of `url.Parse` with its
operation, URL and cause, and any other error, told apart by its message. -/
inductive Error where
  | wrongRequest
  | invalidMethod (method : String)
  | urlError (op : String) (url : Bytes) (err : URLErr)
  | other (msg : String)
  deriving DecidableEq, Repr

/-- Go source: `var ErrWrongRequest = errors.New("wrong request")`. -/
def ErrWrongRequest : Error := Error.wrongRequest

/-- The transport request `*http.Request`: the method, the parsed URL and the
host taken from it (the body is always nil here). -/
structure HttpRequest where
  Method : String
  URL : ParsedURL
  Host : Bytes
  deriving DecidableEq, Repr

/-- The part of `*http.Response` that `Do` touches: its body. -/
structure Response where
  Body : String
  deriving DecidableEq, Repr

/-- What a call reads from outside the package: the current value of the
package-level variable `Scheme`; what `url.Parse` makes of an authority that
is not a plain host name (user info, port, IP literal, escapes); and the `Do`
method of the `http.Client` that `New` builds around a transport, which may
follow redirects and wraps the errors of the transport. The last two are left
open: every result below holds for every choice of them. -/
structure Runtime where
  Scheme : String
  parseAuthority : Bytes → Except URLErr (Option Userinfo × Bytes)
  clientDo : (HttpRequest → Except Error Response) → HttpRequest → Except Error Response

/-- Go's `strings.Cut(s, sep)` for a separator of one byte: the bytes before
the first `sep`, the bytes after it, and whether it was found; without it the
whole of `s`, nothing, and false. -/
def Cut : Bytes → Nat → Bytes × Bytes × Bool
  | [], _ => ([], [], false)
  | c :: cs, sep =>
    if c = sep then ([], cs, true)
    else ((c :: (Cut cs sep).1), (Cut cs sep).2.1, (Cut cs sep).2.2)

/-- Go's `URL.EscapedPath` for a URL without `RawPath`. -/
def EscapedPath (path : Bytes) : Bytes :=
  if path = [42] then [42] else escape path encoding.encodePath

/-- Go's `URL.String` for the literal of `BuildURL`, which has no opaque part,
user, query or fragment: the scheme and a colon, `//` and the escaped host, a
slash when the escaped path does not start with one, `./` when nothing was
written and the first path segment has a colon, and the escaped path. -/
def URL.String (u : URL) : Bytes :=
  let buf := if utf8 u.Scheme ≠ [] then utf8 u.Scheme ++ [58] else []
  let buf :=
    if utf8 u.Scheme ≠ [] ∨ utf8 u.Host ≠ [] then
      let buf := if utf8 u.Host ≠ [] ∨ utf8 u.Path ≠ [] then buf ++ [47, 47] else buf
      if utf8 u.Host ≠ [] then buf ++ escape (utf8 u.Host) encoding.encodeHost else buf
    else buf
  let path := EscapedPath (utf8 u.Path)
  let buf := if path ≠ [] ∧ path.head? ≠ some 47 ∧ utf8 u.Host ≠ [] then buf ++ [47] else buf
  let buf := if buf = [] ∧ (Cut path 47).1.contains 58 then buf ++ [46, 47] else buf
  buf ++ path

/-- Go's `stringContainsCTLByte`: a byte below the space, or 0x7f. -/
def stringContainsCTLByte (s : Bytes) : Bool := s.any fun b => b < 32 || b = 127

/-- The loop of Go's `getScheme` from index `i` on, over the rest of the
string: letters go on; a digit, `+`, `-` or `.` goes on except at index 0,
where there is no scheme; a colon ends the scheme, and is an error at index 0;
any other byte means there is no scheme. -/
def getSchemeFrom (rawURL : Bytes) : Bytes → Nat → Except URLErr (Bytes × Bytes)
  | [], _ => .ok ([], rawURL)
  | c :: cs, i =>
    if isLetter c then getSchemeFrom rawURL cs (i + 1)
    else if isDigit c || c = 43 || c = 45 || c = 46 then
      if i = 0 then .ok ([], rawURL) else getSchemeFrom rawURL cs (i + 1)
    else if c = 58 then
      if i = 0 then .error URLErr.missingScheme else .ok (rawURL.take i, cs)
    else .ok ([], rawURL)

/-- Go's `getScheme(rawURL)`: the scheme and the rest after its colon. -/
def getScheme (rawURL : Bytes) : Except URLErr (Bytes × Bytes) :=
  getSchemeFrom rawURL rawURL 0

/-- Go's `strings.ToLower` on a scheme, which `getScheme` leaves in ASCII. -/
def toLowerASCII (s : Bytes) : Bytes :=
  s.map fun c => if 65 ≤ c && c ≤ 90 then c + 32 else c

/-- An authority that is a plain host name: letters, digits, `-` and `.`
only. -/
def isPlainHost (authority : Bytes) : Bool :=
  authority.all fun c => isLetter c || isDigit c || c = 45 || c = 46

/-- Go's `parseAuthority`: a plain host name has no user info, no port and
nothing to unescape, and is the host as it stands; any other authority is left
to the runtime. -/
def parseAuthority (rt : Runtime) (authority : Bytes) :
    Except URLErr (Option Userinfo × Bytes) :=
  if isPlainHost authority then .ok (none, authority) else rt.parseAuthority authority

/-- Go's `URL.setPath`: the unescaped path, and the raw path only when the
default escaping of the path differs from it. -/
def setPath (u : ParsedURL) (p : Bytes) : Except URLErr ParsedURL :=
  match unescape p with
  | .error e => .error e
  | .ok path =>
    .ok { u with Path := path,
                 RawPath := if escape path encoding.encodePath = p then [] else p }

/-- Go's `URL.setFragment`. -/
def setFragment (u : ParsedURL) (f : Bytes) : Except URLErr ParsedURL :=
  match unescape f with
  | .error e => .error e
  | .ok frag =>
    .ok { u with Fragment := frag,
                 RawFragment := if escape frag encoding.encodeFragment = f then [] else f }

/-- The end of Go's `parse(rawURL, false)`: after `//` the authority runs to
the next slash; then the path is set. -/
def parseFromAuthority (rt : Runtime) (url : ParsedURL) (rest : Bytes) :
    Except URLErr ParsedURL :=
  if (url.Scheme ≠ [] || !(utf8 "///").isPrefixOf rest) && (utf8 "//").isPrefixOf rest then
    let authority := rest.drop 2
    let c := Cut authority 47
    let authority := c.1
    let rest := if c.2.2 then 47 :: c.2.1 else []
    match parseAuthority rt authority with
    | .error e => .error e
    | .ok (user, host) => setPath { url with User := user, Host := host } rest
  else if url.Scheme ≠ [] && (utf8 "/").isPrefixOf rest then
    setPath { url with OmitHost := true } rest
  else
    setPath url rest

/-- The middle of Go's `parse(rawURL, false)`: a rest that does not start with
a slash is opaque under a scheme, and without one must not have a colon in its
first segment. -/
def parseRest (rt : Runtime) (url : ParsedURL) (rest : Bytes) : Except URLErr ParsedURL :=
  if !(utf8 "/").isPrefixOf rest then
    if url.Scheme ≠ [] then .ok { url with Opaque := rest }
    else if (Cut rest 47).1.contains 58 then .error URLErr.colonInFirstSegment
    else parseFromAuthority rt url rest
  else parseFromAuthority rt url rest

/-- The part of Go's `parse(rawURL, false)` after `getScheme`: the scheme is
lowered, and the query is cut off at the first question mark (a single
question mark at the end only forces the query). -/
def parseQuery (rt : Runtime) (scheme rest : Bytes) : Except URLErr ParsedURL :=
  let url : ParsedURL := { Scheme := toLowerASCII scheme }
  if rest.getLast? = some 63 && rest.count 63 = 1 then
    parseRest rt { url with ForceQuery := true } rest.dropLast
  else
    parseRest rt { url with RawQuery := (Cut rest 63).2.1 } (Cut rest 63).1

/-- Go's `parse(rawURL, false)` of `net/url`. -/
def parse (rt : Runtime) (rawURL : Bytes) : Except URLErr ParsedURL :=
  if stringContainsCTLByte rawURL then .error URLErr.invalidControl
  else if rawURL = [42] then .ok { Path := [42] }
  else
    match getScheme rawURL with
    | .error e => .error e
    | .ok (scheme, rest) => parseQuery rt scheme rest

/-- Go's `url.Parse(rawURL)`: the fragment is cut off at the first `#`, the
rest is parsed, then the fragment is set; an error is wrapped in a
`*url.Error`. -/
def Parse (rt : Runtime) (rawURL : Bytes) : Except Error ParsedURL :=
  let c := Cut rawURL 35
  match parse rt c.1 with
  | .error e => .error (Error.urlError "parse" c.1 e)
  | .ok url =>
    if c.2.1 = [] then .ok url
    else
      match setFragment url c.2.1 with
      | .error e => .error (Error.urlError "parse" rawURL e)
      | .ok url => .ok url

/-- Go's `hasPort` of `net/http`: the last colon comes after the last closing
bracket. -/
def hasPort (s : Bytes) : Bool :=
  match s.reverse.indexOf? 58, s.reverse.indexOf? 93 with
  | some i, some j => i < j
  | some _, none => true
  | none, _ => false

/-- Go's `removeEmptyPort` of `net/http`: a host that ends in a bare colon
loses it. -/
def removeEmptyPort (host : Bytes) : Bytes :=
  if hasPort host then (if host.getLast? = some 58 then host.dropLast else host) else host

/-- Go source: `func (r Request) BuildURL() url.URL`. -/
def Request.BuildURL (rt : Runtime) (r : Request) : URL :=
  { Scheme := rt.Scheme, Host := "a.wykop.pl", Path := r.BuildPath }

/-- Token characters of RFC 7230, the characters Go's `net/http` accepts in a
method name (`httpguts.IsTokenRune`): ASCII letters, digits and a fixed
set of punctuation. -/
def isTokenRune (c : Char) : Bool :=
  c.isAlphanum || "!#$%&'*+-.^_`|~".data.contains c

/-- Go's `net/http` `validMethod`: non-empty and made of token characters. -/
def validMethod (method : String) : Bool :=
  len method > 0 && method.data.all isTokenRune

/-- Go's `http.NewRequest(method, url, nil)`: the empty method stands for GET,
an invalid method is refused, then the URL string is parsed and a parse error
returned as it is; the host of the URL loses an empty port and is also the
host of the request. -/
def NewRequest (rt : Runtime) (method : String) (url : Bytes) : Except Error HttpRequest :=
  let method := if method = "" then "GET" else method
  if !validMethod method then
    .error (Error.invalidMethod method)
  else
    match Parse rt url with
    | .error err => .error err
    | .ok u =>
      .ok { Method := method, URL := { u with Host := removeEmptyPort u.Host },
            Host := removeEmptyPort u.Host }

/-- Go source: `func (r Request) Build() (*http.Request, error)`. -/
def Request.Build (rt : Runtime) (r : Request) : Except Error HttpRequest :=
  if r.Resource = "" || r.RequestMethod = "" || r.Method = "" then
    .error ErrWrongRequest
  else
    let u := r.BuildURL rt
    NewRequest rt r.RequestMethod u.String

/-- Go source: `type Client struct`. The `*http.Client` is embedded as its `Do` method:
the HTTP executor, from a transport request to a response or an error. -/
structure Client where
  appKey : String
  userKey : String
  httpClient : HttpRequest → Except Error Response

/-- Go source: `func New(appKey, userKey string, transport http.RoundTripper) *Client`:
the executor is the `Do` of the `http.Client` built around the transport. -/
def New (rt : Runtime) (appKey userKey : String)
    (transport : HttpRequest → Except Error Response) : Client :=
  { appKey := appKey, userKey := userKey, httpClient := rt.clientDo transport }

/-- Go source: `json.NewDecoder(body).Decode(resp)` for a destination of type `D`: from
the body and the destination's old content to its new content and the error
(`none` for nil). -/
abbrev Decoder (D : Type) := String → D → D × Option Error

/-- Everything observable once `Do` has returned: the request (mutated through
the pointer), the destination, the returned error (`none` for nil), the
transport requests handed to the HTTP executor in order, how many times a
response body was closed and how many times one was handed to the JSON
decoder. -/
structure DoResult (D : Type) where
  request : Request
  resp : Option D
  err : Option Error
  sent : List HttpRequest
  closed : Nat
  decoded : Nat

/-- Go source: `func (c *Client) Do(r *Request, resp interface{}) error`; `resp = none`
is the nil destination. -/
def Client.Do {D : Type} (rt : Runtime) (decode : Decoder D) (c : Client) (r : Request)
    (resp : Option D) : DoResult D :=
  let r := { r with ApiParams := r.ApiParams ++ [Param.mk "appkey" c.appKey] }
  let r := if r.UserAuth then
      { r with ApiParams := r.ApiParams ++ [Param.mk "userkey" c.userKey] }
    else r
  match r.Build rt with
  | .error err =>
    { request := r, resp := resp, err := some err, sent := [], closed := 0, decoded := 0 }
  | .ok req =>
    match c.httpClient req with
    | .error err =>
      { request := r, resp := resp, err := some err, sent := [req], closed := 0,
        decoded := 0 }
    | .ok res =>
      match resp with
      | some d =>
        let out := decode res.Body d
        { request := r, resp := some out.1, err := out.2, sent := [req], closed := 1,
          decoded := 1 }
      | none =>
        { request := r, resp := none, err := none, sent := [req], closed := 1,
          decoded := 0 }

/-- The request as the first three statements of `Do` leave it. -/
def authInjected (c : Client) (r : Request) : Request :=
  let r := { r with ApiParams := r.ApiParams ++ [Param.mk "appkey" c.appKey] }
  if r.UserAuth then
    { r with ApiParams := r.ApiParams ++ [Param.mk "userkey" c.userKey] }
  else r

/-- The statements of `Do` from the call of `Build` on. -/
def doFromBuild {D : Type} (rt : Runtime) (decode : Decoder D) (c : Client) (r : Request)
    (resp : Option D) : DoResult D :=
  match r.Build rt with
  | .error err =>
    { request := r, resp := resp, err := some err, sent := [], closed := 0, decoded := 0 }
  | .ok req =>
    match c.httpClient req with
    | .error err =>
      { request := r, resp := resp, err := some err, sent := [req], closed := 0,
        decoded := 0 }
    | .ok res =>
      match resp with
      | some d =>
        let out := decode res.Body d
        { request := r, resp := some out.1, err := out.2, sent := [req], closed := 1,
          decoded := 1 }
      | none =>
        { request := r, resp := none, err := none, sent := [req], closed := 1,
          decoded := 0 }

/-- The path as the specification words it: the comma-join of the flattened
list name1, value1, name2, value2, ... of the api params. -/
def specApiBlob (r : Request) : String :=
  ",".intercalate (r.ApiParams.flatMap fun p => [p.Name, p.Value])

/-- The path as the specification words it: the slash-join of resource,
method, the method param values in order, and the api blob when it is not
empty. -/
def specPath (r : Request) : String :=
  "/".intercalate
    ([r.Resource, r.Method] ++ r.MethodParams.map Param.Value ++
      (if specApiBlob r ≠ "" then [specApiBlob r] else []))

/-! ## Definitions used in the statements and proofs -/

/-- Whether a call returned a value and no error. -/
def succeeds {ε α : Type} : Except ε α → Bool
  | .ok _ => true
  | .error _ => false

/-- The bytes of `//a.wykop.pl`, as `URL.String` writes the host. -/
def slashHost : Bytes := utf8 "//a.wykop.pl"

/-- The scheme and its colon as `URL.String` writes them. -/
def schemePart (s : Bytes) : Bytes := if s ≠ [] then s ++ [58] else []

/-- A path without its leading slash, when it has one. -/
def dropSlash (p : Bytes) : Bytes := if p.head? = some 47 then p.tail else p

/-- A path with a leading slash: itself when it has one, else with one put in
front. -/
def withLeadingSlash (p : Bytes) : Bytes := if p.head? = some 47 then p else 47 :: p

/-- A scheme that Go's `getScheme` accepts as one: it starts with a letter and
goes on with letters, digits, `+`, `-` and `.`. -/
def validScheme (s : Bytes) : Bool :=
  match s with
  | [] => false
  | c :: cs => isLetter c && cs.all fun c => isLetter c || isDigit c || c = 43 || c = 45 || c = 46

/-- A package-level scheme under which the URL string reads back as it was
built: the empty one, or a valid one. -/
def acceptedScheme (s : Bytes) : Bool := s.isEmpty || validScheme s

/-- Whether the part of `parse` after the query is cut off succeeds: it
depends on the URL so far only through whether a scheme was found. -/
def parseRestOk (rt : Runtime) (noScheme : Bool) (rest : Bytes) : Bool :=
  let fromAuthority : Bool :=
    if (!noScheme || !(utf8 "///").isPrefixOf rest) && (utf8 "//").isPrefixOf rest then
      succeeds (parseAuthority rt (Cut (rest.drop 2) 47).1) &&
        succeeds (unescapeCheck
          (if (Cut (rest.drop 2) 47).2.2 then 47 :: (Cut (rest.drop 2) 47).2.1 else []))
    else succeeds (unescapeCheck rest)
  if !(utf8 "/").isPrefixOf rest then
    if !noScheme then true
    else if (Cut rest 47).1.contains 58 then false
    else fromAuthority
  else fromAuthority

/-- A tail that escaping a path can produce: no control byte, no `#`, no `?`,
and every `%` followed by two hex digits. -/
def BenignTail (t : Bytes) : Prop :=
  (∀ b ∈ t, b ≠ 35 ∧ b ≠ 63 ∧ 32 ≤ b ∧ b ≠ 127) ∧ unescapeCheck t = .ok ()

/-- A runtime for concrete evaluation: the default scheme, a `url.Parse` that
refuses every authority other than a plain host name, and an `http.Client`
whose `Do` hands the request to the transport once and returns its answer. -/
def sampleRuntime : Runtime where
  Scheme := Scheme
  parseAuthority _ := .error (URLErr.authority "not a plain host name")
  clientDo transport := transport

/-! ## Resource accessors -/

/-- Go source: `type PromotedSort string`. -/
abbrev PromotedSort := String

def PromotedByDay : PromotedSort := "day"
def PromotedByWeek : PromotedSort := "week"
def PromotedByMonth : PromotedSort := "month"

/-- Go source: `type UpcomingSort string`. -/
abbrev UpcomingSort := String

def UpcomingDate : UpcomingSort := "date"
def UpcomingVotes : UpcomingSort := "votes"
def UpcomingComments : UpcomingSort := "comments"

/-- Go source: `http.MethodGet`. -/
def MethodGet : String := "GET"

/-- The request literal of `resLinks.Promoted`. -/
def promotedRequest (page : Int) (sort : PromotedSort) : Request :=
  { RequestMethod := MethodGet, Resource := "links", Method := "promoted",
    ApiParams := [⟨"page", Itoa page⟩, ⟨"sort", sort⟩] }

/-- Go source: `func (r resLinks) Promoted(page int, sort PromotedSort) ([]Link, error)`:
the destination starts as the nil slice; the returned pair is the `resp` and
`err` of the result. -/
def resLinks.Promoted {Link : Type} (rt : Runtime) (decode : Decoder (List Link))
    (c : Client) (page : Int) (sort : PromotedSort) : DoResult (List Link) :=
  c.Do rt decode (promotedRequest page sort) (some [])

/-- The request literal of `resLinks.Upcoming`. -/
def upcomingRequest (page : Int) (sort : UpcomingSort) : Request :=
  { RequestMethod := MethodGet, Resource := "links", Method := "upcoming",
    ApiParams := [⟨"page", Itoa page⟩, ⟨"sort", sort⟩] }

/-- Go source: `func (r resLinks) Upcoming(page int, sort UpcomingSort) ([]Link, error)`. -/
def resLinks.Upcoming {Link : Type} (rt : Runtime) (decode : Decoder (List Link))
    (c : Client) (page : Int) (sort : UpcomingSort) : DoResult (List Link) :=
  c.Do rt decode (upcomingRequest page sort) (some [])

/-- The request literal of `resLinks.Index`. -/
def indexRequest (id : Int) : Request :=
  { UserAuth := true, RequestMethod := MethodGet, Resource := "link", Method := "index",
    MethodParams := [⟨"param1", Itoa id⟩] }

/-- Go source: `func (r resLinks) Index(id int) (*Link, error)`: the destination is a
pointer that starts nil. -/
def resLinks.Index {Link : Type} (rt : Runtime) (decode : Decoder (Option Link))
    (c : Client) (id : Int) : DoResult (Option Link) :=
  c.Do rt decode (indexRequest id) (some none)

/-- The request literal of `resLinks.Digs`. -/
def digsRequest (id : Int) : Request :=
  { RequestMethod := MethodGet, Resource := "link", Method := "digs",
    MethodParams := [⟨"param1", Itoa id⟩] }

/-- Go source: `func (r resLinks) Digs(id int) ([]*Dig, error)`. -/
def resLinks.Digs {Dig : Type} (rt : Runtime) (decode : Decoder (List Dig))
    (c : Client) (id : Int) : DoResult (List Dig) :=
  c.Do rt decode (digsRequest id) (some [])

/-! ## User groups -/

deriving instance DecidableEq for Except

/-- Go source: `type UserGroup int`. -/
abbrev UserGroup := Int

def GroupGreen : UserGroup := 0
def GroupOrange : UserGroup := 1
def GroupBrown : UserGroup := 2
def GroupAdmin : UserGroup := 5
def GroupBanned : UserGroup := 1001
def GroupDeleted : UserGroup := 1002
def GroupClient : UserGroup := 2001

/-- Go source: `func (u UserGroup) Color() string`; the `panic("unknown group")` after
the switch is the error. `GroupBanned` falls through to `GroupDeleted`. -/
def UserGroup.Color (u : UserGroup) : Except String String :=
  if u = GroupGreen then .ok "#339933"
  else if u = GroupOrange then .ok "#339933"
  else if u = GroupBrown then .ok "#BB0000"
  else if u = GroupAdmin then .ok "#000000"
  else if u = GroupBanned then .ok "#999999"
  else if u = GroupDeleted then .ok "#999999"
  else if u = GroupClient then .ok "#3F6FA0"
  else .error "unknown group"

/-- Go source: `func (u UserGroup) Name() string`; the `panic("unknown group")` after
the switch is the error. -/
def UserGroup.Name (u : UserGroup) : Except String String :=
  if u = GroupGreen then .ok "Zielony"
  else if u = GroupOrange then .ok "Pomarańczowy"
  else if u = GroupBrown then .ok "Bordowy"
  else if u = GroupAdmin then .ok "Administrator"
  else if u = GroupBanned then .ok "Zbanowany"
  else if u = GroupDeleted then .ok "Usunięty"
  else if u = GroupClient then .ok "Klient"
  else .error "unknown group"

/-- The seven codes of the `const` block, in its order. -/
def mappedGroups : List UserGroup :=
  [GroupGreen, GroupOrange, GroupBrown, GroupAdmin, GroupBanned, GroupDeleted, GroupClient]


/-! ## Helper lemmas -/

theorem foldl_append_singletons {α β : Type} (f : α → List β) (ps : List α)
    (init : List β) :
    ps.foldl (fun parts v => parts ++ f v) init = init ++ ps.flatMap f := by
  induction ps generalizing init with
  | nil => simp
  | cons p ps ih => simp [List.foldl_cons, ih, List.append_assoc]

theorem apiParts_eq_flatMap (ps : List Param) :
    apiParts ps = ps.flatMap (fun p => [p.Name, p.Value]) := by
  unfold apiParts
  rw [foldl_append_singletons (fun p : Param => [p.Name, p.Value]) ps []]
  simp

theorem methodParts_eq (ps : List Param) (init : List String) :
    ps.foldl (fun parts v => parts ++ [v.Value]) init = init ++ ps.map Param.Value := by
  rw [foldl_append_singletons (fun p : Param => [p.Value]) ps init]
  congr 1
  induction ps with
  | nil => rfl
  | cons p ps ih => simp [List.flatMap_cons, ih]

theorem intercalate_go_eq (acc sep : String) (l : List String) :
    String.intercalate.go acc sep l = acc ++ (l.map (fun a => sep ++ a)).foldr (· ++ ·) "" := by
  induction l generalizing acc with
  | nil => simp [String.intercalate.go]
  | cons a l ih => simp [String.intercalate.go, ih, String.append_assoc]

theorem Join_cons_eq (a sep : String) (l : List String) :
    Join (a :: l) sep = a ++ (l.map (fun b => sep ++ b)).foldr (· ++ ·) "" := by
  induction l generalizing a with
  | nil => simp [Join]
  | cons b l ih => simp [Join, ih, String.append_assoc]

theorem Join_eq_intercalate (l : List String) (sep : String) :
    Join l sep = sep.intercalate l := by
  cases l with
  | nil => rfl
  | cons a l => rw [Join_cons_eq, String.intercalate, intercalate_go_eq]

theorem len_append (s t : String) : len (s ++ t) = len s + len t := by
  rcases s with ⟨cs⟩
  rcases t with ⟨ct⟩
  show String.utf8Len (cs ++ ct) = String.utf8Len cs + String.utf8Len ct
  exact String.utf8Len_append cs ct

theorem len_pos_iff (s : String) : 0 < len s ↔ s ≠ "" := by
  constructor
  · intro h hs
    subst hs
    exact absurd h (by decide)
  · intro h
    rcases s with ⟨cs⟩
    cases cs with
    | nil => exact absurd rfl h
    | cons c cs =>
      have := Char.utf8Size_pos c
      simp only [len, String.utf8ByteSize_mk, String.utf8Len_cons]
      omega

theorem len_Join_pair_pos (a b sep : String) (l : List String) (hsep : 0 < len sep) :
    0 < len (Join (a :: b :: l) sep) := by
  simp only [Join, len_append]
  omega

theorem apiParamsSegment_pos (r : Request) (h : r.ApiParams ≠ []) :
    0 < len (apiParamsSegment r) := by
  unfold apiParamsSegment
  rw [apiParts_eq_flatMap]
  cases hps : r.ApiParams with
  | nil => exact absurd hps h
  | cons p ps =>
    simp only [List.flatMap_cons, List.cons_append, List.nil_append]
    exact len_Join_pair_pos _ _ _ _ (by decide)

theorem apiParamsSegment_nil (r : Request) (h : r.ApiParams = []) :
    apiParamsSegment r = "" := by
  simp [apiParamsSegment, h, apiParts, Join]

theorem len_empty : len "" = 0 := rfl

/-- The parts of the path before the api segment. -/
theorem pathParts_eq (r : Request) :
    pathParts r = [r.Resource, r.Method] ++ r.MethodParams.map Param.Value ++
      (if r.ApiParams = [] then [] else [apiParamsSegment r]) := by
  unfold pathParts
  simp only [methodParts_eq]
  by_cases h : r.ApiParams = []
  · simp [h, apiParamsSegment_nil r h, len_empty]
  · simp [h, apiParamsSegment_pos r h]

theorem Do_eq_doFromBuild {D : Type} (rt : Runtime) (decode : Decoder D) (c : Client)
    (r : Request) (resp : Option D) :
    c.Do rt decode r resp = doFromBuild rt decode c (authInjected c r) resp := rfl

theorem doFromBuild_request {D : Type} (rt : Runtime) (decode : Decoder D) (c : Client)
    (r : Request) (resp : Option D) :
    (doFromBuild rt decode c r resp).request = r := by
  unfold doFromBuild
  split
  · rfl
  · split
    · rfl
    · split <;> rfl

theorem Do_request {D : Type} (rt : Runtime) (decode : Decoder D) (c : Client)
    (r : Request) (resp : Option D) :
    (c.Do rt decode r resp).request = authInjected c r := by
  rw [Do_eq_doFromBuild, doFromBuild_request]

theorem authInjected_eq (c : Client) (r : Request) :
    authInjected c r =
      { r with ApiParams := r.ApiParams ++
          (if r.UserAuth then [Param.mk "appkey" c.appKey, Param.mk "userkey" c.userKey]
           else [Param.mk "appkey" c.appKey]) } := by
  unfold authInjected
  cases hu : r.UserAuth <;> simp [hu]

/-- The path built by the two loops is the path as the specification words it. -/
theorem BuildPath_specPath (q : Request) : q.BuildPath = specPath q := by
  have hblob : specApiBlob q = apiParamsSegment q := by
    simp [specApiBlob, apiParamsSegment, apiParts_eq_flatMap, Join_eq_intercalate]
  unfold Request.BuildPath specPath
  rw [Join_eq_intercalate, pathParts_eq, hblob]
  by_cases h : q.ApiParams = []
  · simp [h, apiParamsSegment_nil q h]
  · have := (len_pos_iff _).1 (apiParamsSegment_pos q h)
    simp [h, this]

/-! ## Lemmas on `net/url` -/


theorem Cut_of_mem (x y : Bytes) (sep : Nat) (h : sep ∈ x) :
    Cut (x ++ y) sep = ((Cut x sep).1, (Cut x sep).2.1 ++ y, true) ∧ (Cut x sep).2.2 = true := by
  induction x with
  | nil => simp at h
  | cons c cs ih =>
    by_cases hc : c = sep
    · simp [Cut, hc]
    · have hm : sep ∈ cs := by
        rcases List.mem_cons.1 h with h | h
        · exact absurd h.symm hc
        · exact h
      have := ih hm
      simp [Cut, hc, this.1, this.2]

theorem Cut_of_not_mem (x : Bytes) (sep : Nat) (h : sep ∉ x) : Cut x sep = (x, [], false) := by
  induction x with
  | nil => rfl
  | cons c cs ih =>
    have hc : c ≠ sep := fun e => h (by simp [e])
    have hm : sep ∉ cs := fun e => h (List.mem_cons_of_mem _ e)
    simp [Cut, hc, ih hm]

theorem unescapeCheck_cons_ne (c : Nat) (t : Bytes) (hc : c ≠ 37) :
    unescapeCheck (c :: t) = unescapeCheck t := by
  match t with
  | [] => simp [unescapeCheck, hc]
  | [h1] => simp [unescapeCheck, hc]
  | h1 :: h2 :: rest => simp [unescapeCheck, hc]

theorem unescapeCheck_pct (h1 h2 : Nat) (t : Bytes) :
    unescapeCheck (37 :: h1 :: h2 :: t) =
      if ishex h1 && ishex h2 then unescapeCheck t else .error (URLErr.escape [37, h1, h2]) := by
  simp [unescapeCheck]

theorem succeeds_unescapeCheck_slash (n : Nat) :
    ∀ (Q t : Bytes), Q.length ≤ n → unescapeCheck t = .ok () →
      succeeds (unescapeCheck (Q ++ 47 :: t)) = succeeds (unescapeCheck (Q ++ [47])) := by
  induction n using Nat.strong_induction_on with
  | _ n ih =>
    intro Q t hn ht
    match Q with
    | [] =>
      simp [unescapeCheck_cons_ne, ht, unescapeCheck, succeeds]
    | c :: Q1 =>
      by_cases hc : c = 37
      · subst hc
        match Q1 with
        | [] =>
          cases t with
          | nil => simp [unescapeCheck, succeeds]
          | cons h2 rest => simp [unescapeCheck, ishex, succeeds]
        | [d] =>
          simp [unescapeCheck, ishex, succeeds]
        | d :: e :: Q2 =>
          simp only [List.cons_append, unescapeCheck_pct]
          by_cases hh : (ishex d && ishex e) = true
          · simp only [hh, if_true]
            exact ih Q2.length (by simp at hn ⊢; omega) Q2 t (le_refl _) ht
          · simp [hh, succeeds]
      · simp only [List.cons_append, unescapeCheck_cons_ne _ _ hc]
        exact ih Q1.length (by simp at hn ⊢; omega) Q1 t (le_refl _) ht

theorem utf8Char_lt (c : Char) : ∀ b ∈ utf8Char c, b < 256 := by
  have hv : c.toNat < 0x110000 := by
    have := c.valid
    simp only [Char.toNat]
    rcases this with h | h
    · have : c.val.toNat < 0xD800 := h
      omega
    · exact h.2
  intro b hb
  unfold utf8Char at hb
  simp only at hb
  split_ifs at hb <;> simp at hb <;> omega

theorem utf8_lt (s : String) : ∀ b ∈ utf8 s, b < 256 := by
  intro b hb
  simp only [utf8, List.mem_flatMap] at hb
  obtain ⟨c, _, hc⟩ := hb
  exact utf8Char_lt c b hc

theorem utf8_append (a b : String) : utf8 (a ++ b) = utf8 a ++ utf8 b := by
  simp [utf8, String.data_append]

theorem upperhex_spec : ∀ n, n < 16 → ishex (upperhex n) = true ∧ unhex (upperhex n) = n ∧
    32 ≤ upperhex n ∧ upperhex n ≠ 127 ∧ upperhex n ≠ 35 ∧ upperhex n ≠ 63 := by
  decide

theorem unescapeDecode_cons_ne (c : Nat) (t : Bytes) (hc : c ≠ 37) :
    unescapeDecode (c :: t) = c :: unescapeDecode t := by
  match t with
  | [] => simp [unescapeDecode]
  | [h1] => simp [unescapeDecode]
  | h1 :: h2 :: rest => simp [unescapeDecode, hc]

theorem unescapeDecode_pct (h1 h2 : Nat) (t : Bytes) :
    unescapeDecode (37 :: h1 :: h2 :: t) = (unhex h1 * 16 + unhex h2) :: unescapeDecode t := by
  simp [unescapeDecode]

/-- What path escaping leaves alone is an ordinary printable byte. -/
theorem not_shouldEscape_path (c : Nat) (h : shouldEscape c encoding.encodePath = false) :
    c ≠ 37 ∧ c ≠ 35 ∧ c ≠ 63 ∧ 32 ≤ c ∧ c ≠ 127 := by
  by_contra hcon
  have hc : c = 37 ∨ c = 35 ∨ c = 63 ∨ c < 32 ∨ c = 127 := by omega
  have : shouldEscape c encoding.encodePath = true := by
    rcases hc with h | h | h | h | h
    · subst h; decide
    · subst h; decide
    · subst h; decide
    · interval_cases c <;> decide
    · subst h; decide
  rw [this] at h
  cases h

theorem escape_cons (c : Nat) (q : Bytes) (mode : encoding) :
    escape (c :: q) mode =
      (if shouldEscape c mode then [37, upperhex (c / 16), upperhex (c % 16)] else [c]) ++
        escape q mode := by
  simp [escape]

theorem unescapeCheck_escape (q : Bytes) (hq : ∀ b ∈ q, b < 256) :
    unescapeCheck (escape q encoding.encodePath) = .ok () := by
  induction q with
  | nil => rfl
  | cons c q ih =>
    have hc : c < 256 := hq c (by simp)
    have ih := ih (fun b hb => hq b (List.mem_cons_of_mem _ hb))
    rw [escape_cons]
    cases hs : shouldEscape c encoding.encodePath
    · simp only [Bool.false_eq_true, if_false, List.singleton_append]
      rw [unescapeCheck_cons_ne _ _ (not_shouldEscape_path c hs).1, ih]
    · simp only [if_true, List.cons_append, List.nil_append, unescapeCheck_pct]
      have h1 := upperhex_spec (c / 16) (by omega)
      have h2 := upperhex_spec (c % 16) (by omega)
      simp [h1.1, h2.1, ih]

theorem unescapeDecode_escape (q : Bytes) (hq : ∀ b ∈ q, b < 256) :
    unescapeDecode (escape q encoding.encodePath) = q := by
  induction q with
  | nil => rfl
  | cons c q ih =>
    have hc : c < 256 := hq c (by simp)
    have ih := ih (fun b hb => hq b (List.mem_cons_of_mem _ hb))
    rw [escape_cons]
    cases hs : shouldEscape c encoding.encodePath
    · simp only [Bool.false_eq_true, if_false, List.singleton_append]
      rw [unescapeDecode_cons_ne _ _ (not_shouldEscape_path c hs).1, ih]
    · simp only [if_true, List.cons_append, List.nil_append, unescapeDecode_pct]
      have h1 := upperhex_spec (c / 16) (by omega)
      have h2 := upperhex_spec (c % 16) (by omega)
      rw [h1.2.1, h2.2.1, ih]
      congr 1
      omega

/-- The bytes of an escaped path: no control byte, no `#`, no `?`. -/
theorem escape_benign (q : Bytes) (hq : ∀ b ∈ q, b < 256) :
    ∀ b ∈ escape q encoding.encodePath, b ≠ 35 ∧ b ≠ 63 ∧ 32 ≤ b ∧ b ≠ 127 := by
  induction q with
  | nil => intro b hb; simp [escape] at hb
  | cons c q ih =>
    have hc : c < 256 := hq c (by simp)
    have ih := ih (fun b hb => hq b (List.mem_cons_of_mem _ hb))
    intro b hb
    rw [escape_cons] at hb
    rcases List.mem_append.1 hb with hb | hb
    · cases hs : shouldEscape c encoding.encodePath
      · simp only [hs, Bool.false_eq_true, if_false, List.mem_singleton] at hb
        subst hb
        have := not_shouldEscape_path b hs
        exact ⟨this.2.1, this.2.2.1, this.2.2.2.1, this.2.2.2.2⟩
      · simp only [hs, if_true, List.mem_cons, List.mem_singleton, List.not_mem_nil,
          or_false] at hb
        have h1 := upperhex_spec (c / 16) (by omega)
        have h2 := upperhex_spec (c % 16) (by omega)
        rcases hb with hb | hb | hb
        · subst hb; decide
        · subst hb; exact ⟨h1.2.2.2.2.1, h1.2.2.2.2.2, h1.2.2.1, h1.2.2.2.1⟩
        · subst hb; exact ⟨h2.2.2.2.2.1, h2.2.2.2.2.2, h2.2.2.1, h2.2.2.2.1⟩
    · exact ih b hb

theorem succeeds_unescape (p : Bytes) : succeeds (unescape p) = succeeds (unescapeCheck p) := by
  unfold unescape
  cases unescapeCheck p <;> rfl

theorem succeeds_setPath (u : ParsedURL) (p : Bytes) :
    succeeds (setPath u p) = succeeds (unescapeCheck p) := by
  unfold setPath unescape
  cases unescapeCheck p <;> rfl

theorem succeeds_setFragment (u : ParsedURL) (p : Bytes) :
    succeeds (setFragment u p) = succeeds (unescapeCheck p) := by
  unfold setFragment unescape
  cases unescapeCheck p <;> rfl

theorem isPrefixOf_append_of_le (pat Z t : Bytes) (h : pat.length ≤ Z.length) :
    pat.isPrefixOf (Z ++ t) = pat.isPrefixOf Z := by
  induction pat generalizing Z with
  | nil => simp
  | cons p ps ih =>
    cases Z with
    | nil => simp at h
    | cons z zs =>
      have := ih zs (by simpa using h)
      simp [List.isPrefixOf, this]

theorem Cut_snoc_after (Z : Bytes) (sep : Nat) :
    (Cut (Z ++ [sep]) sep).2.1 = [] ∨ ∃ a, (Cut (Z ++ [sep]) sep).2.1 = a ++ [sep] := by
  induction Z with
  | nil => left; simp [Cut]
  | cons c cs ih =>
    by_cases hc : c = sep
    · right
      exact ⟨cs, by simp [Cut, hc]⟩
    · simpa [Cut, hc] using ih

theorem succeeds_parseFromAuthority (rt : Runtime) (url : ParsedURL) (rest : Bytes) :
    succeeds (parseFromAuthority rt url rest) =
      if (!decide (url.Scheme = []) || !(utf8 "///").isPrefixOf rest) &&
          (utf8 "//").isPrefixOf rest then
        succeeds (parseAuthority rt (Cut (rest.drop 2) 47).1) &&
          succeeds (unescapeCheck
            (if (Cut (rest.drop 2) 47).2.2 then 47 :: (Cut (rest.drop 2) 47).2.1 else []))
      else succeeds (unescapeCheck rest) := by
  unfold parseFromAuthority
  have hd : decide (url.Scheme ≠ []) = !decide (url.Scheme = []) := by simp
  rw [hd]
  by_cases hc : ((!decide (url.Scheme = []) || !(utf8 "///").isPrefixOf rest) &&
      (utf8 "//").isPrefixOf rest) = true
  · rw [if_pos hc, if_pos hc]
    cases hpa : parseAuthority rt (Cut (rest.drop 2) 47).1 with
    | error e =>
      simp only [hpa]
      rfl
    | ok v =>
      obtain ⟨user, host⟩ := v
      simp only [hpa, succeeds_setPath]
      simp [succeeds]
  · rw [if_neg hc, if_neg hc]
    split <;> exact succeeds_setPath _ _

theorem succeeds_parseRest (rt : Runtime) (url : ParsedURL) (rest : Bytes) :
    succeeds (parseRest rt url rest) = parseRestOk rt (decide (url.Scheme = [])) rest := by
  unfold parseRest parseRestOk
  by_cases h1 : (utf8 "/").isPrefixOf rest = true
  · simp only [h1, Bool.not_true, Bool.false_eq_true, if_false]
    rw [succeeds_parseFromAuthority]
  · simp only [h1, Bool.not_false, if_true]
    by_cases hs : url.Scheme = []
    · simp only [hs, decide_True, Bool.not_true, ne_eq, not_true_eq_false, if_false,
        Bool.false_eq_true]
      split
      · rfl
      · rw [succeeds_parseFromAuthority]
        simp only [hs, decide_True, Bool.not_true]
    · simp [hs, succeeds]

theorem succeeds_unescapeCheck_tail (Q t : Bytes) (ht : unescapeCheck t = .ok ()) :
    succeeds (unescapeCheck (Q ++ 47 :: t)) = succeeds (unescapeCheck (Q ++ [47])) :=
  succeeds_unescapeCheck_slash Q.length Q t (le_refl _) ht

theorem parseRestOk_tail (rt : Runtime) (e : Bool) (Y t : Bytes) (hY : 3 ≤ Y.length)
    (ht : unescapeCheck t = .ok ()) :
    parseRestOk rt e (Y ++ 47 :: t) = parseRestOk rt e (Y ++ [47]) := by
  have hp : ∀ pat : Bytes, pat.length ≤ 3 →
      pat.isPrefixOf (Y ++ 47 :: t) = pat.isPrefixOf (Y ++ [47]) := by
    intro pat hpat
    rw [isPrefixOf_append_of_le pat Y _ (by omega), isPrefixOf_append_of_le pat Y _ (by omega)]
  have hsplit : Y ++ 47 :: t = (Y ++ [47]) ++ t := by simp
  have hcut : (Cut (Y ++ 47 :: t) 47).1 = (Cut (Y ++ [47]) 47).1 := by
    rw [hsplit, (Cut_of_mem (Y ++ [47]) t 47 (by simp)).1]
  have hd1 : List.drop 2 (Y ++ 47 :: t) = (List.drop 2 Y ++ [47]) ++ t := by
    rw [List.drop_append_of_le_length (by omega)]
    simp
  have hd2 : List.drop 2 (Y ++ [47]) = List.drop 2 Y ++ [47] := by
    rw [List.drop_append_of_le_length (by omega)]
  have hc := Cut_of_mem (List.drop 2 Y ++ [47]) t 47 (by simp)
  have hafter : succeeds (unescapeCheck (47 :: ((Cut (List.drop 2 Y ++ [47]) 47).2.1 ++ t))) =
      succeeds (unescapeCheck (47 :: (Cut (List.drop 2 Y ++ [47]) 47).2.1)) := by
    rcases Cut_snoc_after (List.drop 2 Y) 47 with h | ⟨a, h⟩
    · rw [h]
      simpa using succeeds_unescapeCheck_tail [] t ht
    · rw [h]
      simpa using succeeds_unescapeCheck_tail (47 :: a) t ht
  unfold parseRestOk
  simp only [hp (utf8 "/") (by decide), hp (utf8 "//") (by decide), hp (utf8 "///") (by decide),
    hcut, hd1, hd2, hc.1, hc.2, if_true, hafter, succeeds_unescapeCheck_tail Y t ht]

theorem slashHost_eq : slashHost = [47, 47, 97, 46, 119, 121, 107, 111, 112, 46, 112, 108] := by
  decide

theorem getSchemeFrom_shape (x : Bytes) : ∀ pre : Bytes,
    (∃ e, ∀ w, getSchemeFrom (pre ++ x ++ 47 :: w) (x ++ 47 :: w) pre.length = .error e) ∨
    (∃ sch R, ∀ w,
      getSchemeFrom (pre ++ x ++ 47 :: w) (x ++ 47 :: w) pre.length = .ok (sch, R ++ 47 :: w)) := by
  induction x with
  | nil =>
    intro pre
    right
    refine ⟨[], pre, fun w => ?_⟩
    simp [getSchemeFrom, isLetter, isDigit]
  | cons c cs ih =>
    intro pre
    have hpre : ∀ w, pre ++ c :: cs ++ 47 :: w = (pre ++ [c]) ++ cs ++ 47 :: w := by
      intro w; simp
    have hlen : (pre ++ [c]).length = pre.length + 1 := by simp
    have hrec := ih (pre ++ [c])
    simp only [hlen, ← hpre] at hrec
    by_cases hl : isLetter c = true
    · simpa [getSchemeFrom, hl] using hrec
    · by_cases hd : (isDigit c || c = 43 || c = 45 || c = 46) = true
      · by_cases hi : pre.length = 0
        · right
          refine ⟨[], pre ++ c :: cs, fun w => ?_⟩
          simp [getSchemeFrom, hl, hd, hi]
        · simpa [getSchemeFrom, hl, hd, hi] using hrec
      · by_cases h58 : c = 58
        · subst h58
          by_cases hi : pre.length = 0
          · left
            refine ⟨URLErr.missingScheme, fun w => ?_⟩
            simp [getSchemeFrom, isLetter, isDigit, hi]
          · right
            refine ⟨pre, cs, fun w => ?_⟩
            simp [getSchemeFrom, isLetter, isDigit, hi, List.take_append_of_le_length]
        · right
          refine ⟨[], pre ++ c :: cs, fun w => ?_⟩
          simp [getSchemeFrom, hl, hd, h58]

theorem getScheme_shape (x : Bytes) :
    (∃ e, ∀ w, getScheme (x ++ 47 :: w) = .error e) ∨
    (∃ sch R, ∀ w, getScheme (x ++ 47 :: w) = .ok (sch, R ++ 47 :: w)) := by
  simpa [getScheme] using getSchemeFrom_shape x []

theorem getLast?_ne_of_not_mem (l : Bytes) (c : Nat) (h : c ∉ l) : l.getLast? ≠ some c := by
  intro hl
  exact h (List.mem_of_getLast?_eq_some hl)

theorem succeeds_parseQuery_tail (rt : Runtime) (sch R t : Bytes) (ht : BenignTail t) :
    succeeds (parseQuery rt sch (R ++ slashHost ++ 47 :: t)) =
      succeeds (parseQuery rt sch (R ++ slashHost ++ [47])) := by
  have h63t : (63 : Nat) ∉ (47 :: t) := by
    intro h
    rcases List.mem_cons.1 h with h | h
    · cases h
    · exact (ht.1 63 h).2.1 rfl
  have hl1 : (R ++ slashHost ++ 47 :: t).getLast? ≠ some 63 := by
    rw [List.getLast?_append_of_ne_nil _ (by simp)]
    exact getLast?_ne_of_not_mem _ _ h63t
  have hl2 : (R ++ slashHost ++ [47]).getLast? ≠ some 63 := by
    simp
  have hlen : 3 ≤ (R ++ slashHost).length := by
    simp [slashHost_eq]
  unfold parseQuery
  simp only [hl1, hl2, decide_False, Bool.false_and, Bool.false_eq_true, if_false,
    succeeds_parseRest]
  by_cases hm : (63 : Nat) ∈ R ++ slashHost
  · have h1 := (Cut_of_mem (R ++ slashHost) (47 :: t) 63 hm).1
    have h2 := (Cut_of_mem (R ++ slashHost) [47] 63 hm).1
    rw [h1, h2]
  · have hn1 : (63 : Nat) ∉ R ++ slashHost ++ 47 :: t := by
      intro h
      rcases List.mem_append.1 h with h | h
      · exact hm h
      · exact h63t h
    have hn2 : (63 : Nat) ∉ R ++ slashHost ++ [47] := by
      intro h
      rcases List.mem_append.1 h with h | h
      · exact hm h
      · simp at h
    rw [Cut_of_not_mem _ _ hn1, Cut_of_not_mem _ _ hn2]
    exact parseRestOk_tail rt _ (R ++ slashHost) t hlen ht.2

theorem stringContainsCTLByte_tail (X t : Bytes) (ht : BenignTail t) :
    stringContainsCTLByte (X ++ 47 :: t) = stringContainsCTLByte (X ++ [47]) := by
  have : (t.any fun b => decide (b < 32) || decide (b = 127)) = false := by
    rw [List.any_eq_false]
    intro b hb
    have := ht.1 b hb
    simp
    omega
  simp [stringContainsCTLByte, List.any_append, this]

theorem succeeds_parse_tail (rt : Runtime) (x t : Bytes) (ht : BenignTail t) :
    succeeds (parse rt (x ++ slashHost ++ 47 :: t)) =
      succeeds (parse rt (x ++ slashHost ++ [47])) := by
  have hne : ∀ w : Bytes, x ++ slashHost ++ 47 :: w ≠ [42] := by
    intro w h
    have := congrArg List.length h
    simp [slashHost_eq] at this
    omega
  have hform : ∀ w : Bytes, x ++ slashHost ++ 47 :: w =
      x ++ 47 :: ([47, 97, 46, 119, 121, 107, 111, 112, 46, 112, 108] ++ 47 :: w) := by
    intro w
    simp [slashHost_eq]
  unfold parse
  rw [stringContainsCTLByte_tail _ _ ht]
  simp only [hne t, hne [], if_false]
  split
  · rfl
  · rcases getScheme_shape x with ⟨e, he⟩ | ⟨sch, R, hok⟩
    · rw [hform t, hform [], he, he]
    · rw [hform t, hform [], hok, hok]
      have hback : ∀ w : Bytes,
          R ++ 47 :: ([47, 97, 46, 119, 121, 107, 111, 112, 46, 112, 108] ++ 47 :: w) =
            R ++ slashHost ++ 47 :: w := by
        intro w
        simp [slashHost_eq]
      simp only [hback]
      exact succeeds_parseQuery_tail rt sch R t ht

theorem succeeds_Parse_tail (rt : Runtime) (x t : Bytes) (ht : BenignTail t) :
    succeeds (Parse rt (x ++ slashHost ++ 47 :: t)) =
      succeeds (Parse rt (x ++ slashHost ++ [47])) := by
  have h35 : ∀ w : Bytes, (∀ b ∈ w, b ≠ 35) → (35 : Nat) ∉ slashHost ++ 47 :: w := by
    intro w hw h
    rcases List.mem_append.1 h with h | h
    · rw [slashHost_eq] at h
      simp at h
    · rcases List.mem_cons.1 h with h | h
      · cases h
      · exact hw 35 h rfl
  have h35t := h35 t (fun b hb => (ht.1 b hb).1)
  have h35n := h35 [] (by simp)
  unfold Parse
  by_cases hm : (35 : Nat) ∈ x
  · have h1 := (Cut_of_mem x (slashHost ++ 47 :: t) 35 hm).1
    have h2 := (Cut_of_mem x (slashHost ++ [47]) 35 hm).1
    simp only [List.append_assoc] at h1 h2 ⊢
    rw [h1, h2]
    simp only
    cases parse rt (Cut x 35).1 with
    | error e => rfl
    | ok url =>
      have hn1 : (Cut x 35).2.1 ++ (slashHost ++ 47 :: t) ≠ [] := by simp
      have hn2 : (Cut x 35).2.1 ++ (slashHost ++ [47]) ≠ [] := by simp
      simp only [hn1, hn2, if_false]
      have key : succeeds (setFragment url ((Cut x 35).2.1 ++ (slashHost ++ 47 :: t))) =
          succeeds (setFragment url ((Cut x 35).2.1 ++ (slashHost ++ [47]))) := by
        rw [succeeds_setFragment, succeeds_setFragment]
        have := succeeds_unescapeCheck_tail ((Cut x 35).2.1 ++ slashHost) t ht.2
        simpa using this
      revert key
      cases setFragment url ((Cut x 35).2.1 ++ (slashHost ++ 47 :: t)) <;>
        cases setFragment url ((Cut x 35).2.1 ++ (slashHost ++ [47])) <;>
        simp [succeeds]
  · have hn1 : (35 : Nat) ∉ x ++ slashHost ++ 47 :: t := by
      intro h
      rw [List.append_assoc] at h
      rcases List.mem_append.1 h with h | h
      · exact hm h
      · exact h35t h
    have hn2 : (35 : Nat) ∉ x ++ slashHost ++ [47] := by
      intro h
      rw [List.append_assoc] at h
      rcases List.mem_append.1 h with h | h
      · exact hm h
      · exact h35n h
    rw [Cut_of_not_mem _ _ hn1, Cut_of_not_mem _ _ hn2]
    simp only [if_true]
    have key := succeeds_parse_tail rt x t ht
    revert key
    cases parse rt (x ++ slashHost ++ 47 :: t) <;> cases parse rt (x ++ slashHost ++ [47]) <;>
      simp [succeeds]

theorem URL_String_form (S P : String) (hne : utf8 P ≠ []) (hstar : utf8 P ≠ [42]) :
    URL.String ⟨S, "a.wykop.pl", P⟩ =
      schemePart (utf8 S) ++ slashHost ++
        47 :: escape (dropSlash (utf8 P)) encoding.encodePath := by
  have hhost : utf8 "a.wykop.pl" ≠ [] := by decide
  have hesc : escape (utf8 "a.wykop.pl") encoding.encodeHost = utf8 "a.wykop.pl" := by decide
  have hsh : slashHost = [47, 47] ++ utf8 "a.wykop.pl" := by decide
  unfold URL.String EscapedPath
  simp only [hhost, hne, hstar, hesc, ne_eq, not_false_eq_true, or_true, true_or, if_true,
    if_false, and_true]
  cases hp : utf8 P with
  | nil => exact absurd hp hne
  | cons c p =>
    rw [escape_cons]
    by_cases hc : c = 47
    · subst hc
      have h47 : shouldEscape 47 encoding.encodePath = false := by decide
      simp [h47, schemePart, dropSlash, hsh]
    · have hhead : ((if shouldEscape c encoding.encodePath = true then
            [37, upperhex (c / 16), upperhex (c % 16)] else [c]) ++
          escape p encoding.encodePath).head? ≠ some 47 := by
        split <;> simp [hc]
      have hnonempty : ((if shouldEscape c encoding.encodePath = true then
            [37, upperhex (c / 16), upperhex (c % 16)] else [c]) ++
          escape p encoding.encodePath) ≠ [] := by
        split <;> simp
      simp only [hhead, hnonempty, not_false_eq_true, and_self, if_true]
      have hds : dropSlash (c :: p) = c :: p := by simp [dropSlash, hc]
      rw [hds, escape_cons]
      simp [schemePart, hsh]

theorem getSchemeFrom_valid (cs : Bytes) : ∀ (pre w : Bytes), pre ≠ [] →
    (cs.all fun c => isLetter c || isDigit c || c = 43 || c = 45 || c = 46) = true →
    getSchemeFrom (pre ++ cs ++ 58 :: w) (cs ++ 58 :: w) pre.length = .ok (pre ++ cs, w) := by
  induction cs with
  | nil =>
    intro pre w hpre _
    have hi : pre.length ≠ 0 := by
      intro h
      exact hpre (List.length_eq_zero.1 h)
    simp [getSchemeFrom, isLetter, isDigit, hi, List.take_append_of_le_length]
  | cons c cs ih =>
    intro pre w hpre hall
    simp only [List.all_cons, Bool.and_eq_true] at hall
    have hi : pre.length ≠ 0 := by
      intro h
      exact hpre (List.length_eq_zero.1 h)
    have hrec := ih (pre ++ [c]) w (by simp) hall.2
    have hlen : (pre ++ [c]).length = pre.length + 1 := by simp
    simp only [hlen, List.append_assoc, List.singleton_append] at hrec
    by_cases hl : isLetter c = true
    · simpa [getSchemeFrom, hl] using hrec
    · have hd : (isDigit c || decide (c = 43) || decide (c = 45) || decide (c = 46)) = true := by
        simpa [hl] using hall.1
      simpa [getSchemeFrom, hl, hd, hi] using hrec

theorem getScheme_valid (s w : Bytes) (hs : validScheme s = true) :
    getScheme (s ++ 58 :: w) = .ok (s, w) := by
  cases s with
  | nil => simp [validScheme] at hs
  | cons c cs =>
    simp only [validScheme, Bool.and_eq_true] at hs
    have := getSchemeFrom_valid cs [c] w (by simp) hs.2
    simpa [getScheme, getSchemeFrom, hs.1] using this

theorem validScheme_bytes (s : Bytes) (hs : validScheme s = true) :
    ∀ b ∈ s, b ≠ 35 ∧ b ≠ 63 ∧ 32 ≤ b ∧ b ≠ 127 := by
  have key : ∀ b : Nat, (isLetter b || isDigit b || decide (b = 43) || decide (b = 45) ||
      decide (b = 46)) = true → b ≠ 35 ∧ b ≠ 63 ∧ 32 ≤ b ∧ b ≠ 127 := by
    intro b hb
    simp [isLetter, isDigit] at hb
    omega
  cases s with
  | nil => simp [validScheme] at hs
  | cons c cs =>
    simp only [validScheme, Bool.and_eq_true, List.all_eq_true] at hs
    intro b hb
    rcases List.mem_cons.1 hb with h | h
    · subst h
      exact key b (by simp [hs.1])
    · exact key b (hs.2 b h)

theorem toLowerASCII_ne_nil (s : Bytes) (h : s ≠ []) : toLowerASCII s ≠ [] := by
  cases s with
  | nil => exact absurd rfl h
  | cons c cs => simp [toLowerASCII]

theorem unescape_slash_escape (q : Bytes) (hq : ∀ b ∈ q, b < 256) :
    unescape (47 :: escape q encoding.encodePath) = .ok (47 :: q) := by
  unfold unescape
  rw [unescapeCheck_cons_ne _ _ (by decide), unescapeCheck_escape q hq]
  simp only
  rw [unescapeDecode_cons_ne _ _ (by decide), unescapeDecode_escape q hq]

theorem parseFromAuthority_host (rt : Runtime) (url : ParsedURL) (q : Bytes)
    (hq : ∀ b ∈ q, b < 256) :
    parseFromAuthority rt url (slashHost ++ 47 :: escape q encoding.encodePath) =
      .ok { url with User := none, Host := utf8 "a.wykop.pl", Path := 47 :: q, RawPath := [] } := by
  have hh : utf8 "a.wykop.pl" = [97, 46, 119, 121, 107, 111, 112, 46, 112, 108] := by decide
  have hrest : slashHost ++ 47 :: escape q encoding.encodePath =
      47 :: 47 :: (utf8 "a.wykop.pl" ++ 47 :: escape q encoding.encodePath) := by
    simp [slashHost_eq, hh]
  have hcut : Cut (utf8 "a.wykop.pl" ++ 47 :: escape q encoding.encodePath) 47 =
      (utf8 "a.wykop.pl", escape q encoding.encodePath, true) := by
    have h1 : Cut (utf8 "a.wykop.pl" ++ [47]) 47 = (utf8 "a.wykop.pl", [], true) := by decide
    have h2 := (Cut_of_mem (utf8 "a.wykop.pl" ++ [47]) (escape q encoding.encodePath) 47
      (by simp)).1
    simp only [List.append_assoc, List.singleton_append] at h2
    rw [h2, h1]
    simp
  have hpa : parseAuthority rt (utf8 "a.wykop.pl") = .ok (none, utf8 "a.wykop.pl") := by
    unfold parseAuthority
    have : isPlainHost (utf8 "a.wykop.pl") = true := by decide
    simp [this]
  have hp2 : (utf8 "//").isPrefixOf
      (47 :: 47 :: (utf8 "a.wykop.pl" ++ 47 :: escape q encoding.encodePath)) = true := by
    have : utf8 "//" = [47, 47] := by decide
    simp [this, List.isPrefixOf]
  have hp3 : (utf8 "///").isPrefixOf
      (47 :: 47 :: (utf8 "a.wykop.pl" ++ 47 :: escape q encoding.encodePath)) = false := by
    have : utf8 "///" = [47, 47, 47] := by decide
    simp [this, hh, List.isPrefixOf]
  have hesc : escape (47 :: q) encoding.encodePath = 47 :: escape q encoding.encodePath := by
    rw [escape_cons]
    have : shouldEscape 47 encoding.encodePath = false := by decide
    simp [this]
  unfold parseFromAuthority
  rw [hrest]
  simp only [hp2, hp3, Bool.not_false, Bool.or_true, Bool.and_self,
    if_true, List.drop_succ_cons, List.drop_zero, hcut, hpa]
  unfold setPath
  rw [unescape_slash_escape q hq]
  simp [hesc]

theorem getScheme_slash (w : Bytes) : getScheme (47 :: w) = .ok ([], 47 :: w) := by
  simp [getScheme, getSchemeFrom, isLetter, isDigit]

/-- What `url.Parse` makes of a string whose scheme part `getScheme` takes
off whole, followed by `//a.wykop.pl/` and an escaped path. -/
theorem Parse_host (rt : Runtime) (x sch q : Bytes)
    (hx : ∀ b ∈ x, b ≠ 35 ∧ b ≠ 63 ∧ 32 ≤ b ∧ b ≠ 127)
    (hg : getScheme (x ++ slashHost ++ 47 :: escape q encoding.encodePath) =
      .ok (sch, slashHost ++ 47 :: escape q encoding.encodePath))
    (hq : ∀ b ∈ q, b < 256) :
    Parse rt (x ++ slashHost ++ 47 :: escape q encoding.encodePath) =
      .ok { Scheme := toLowerASCII sch, Host := utf8 "a.wykop.pl", Path := 47 :: q } := by
  have htail : ∀ b ∈ slashHost ++ 47 :: escape q encoding.encodePath,
      b ≠ 35 ∧ b ≠ 63 ∧ 32 ≤ b ∧ b ≠ 127 := by
    intro b h
    rcases List.mem_append.1 h with h | h
    · rw [slashHost_eq] at h
      simp only [List.mem_cons, List.mem_singleton, List.not_mem_nil, or_false] at h
      omega
    · rcases List.mem_cons.1 h with h | h
      · subst h; decide
      · exact escape_benign q hq b h
  have hbytes : ∀ b ∈ x ++ slashHost ++ 47 :: escape q encoding.encodePath,
      b ≠ 35 ∧ b ≠ 63 ∧ 32 ≤ b ∧ b ≠ 127 := by
    intro b hb
    rw [List.append_assoc] at hb
    rcases List.mem_append.1 hb with h | h
    · exact hx b h
    · exact htail b h
  have h35 : (35 : Nat) ∉ x ++ slashHost ++ 47 :: escape q encoding.encodePath :=
    fun h => (hbytes 35 h).1 rfl
  have h63 : (63 : Nat) ∉ slashHost ++ 47 :: escape q encoding.encodePath :=
    fun h => (htail 63 h).2.1 rfl
  have hctl : stringContainsCTLByte
      (x ++ slashHost ++ 47 :: escape q encoding.encodePath) = false := by
    unfold stringContainsCTLByte
    rw [List.any_eq_false]
    intro b hb
    have := hbytes b hb
    simp
    omega
  have hne : x ++ slashHost ++ 47 :: escape q encoding.encodePath ≠ [42] := by
    intro h
    have := congrArg List.length h
    simp [slashHost_eq] at this
    omega
  have hlast : (slashHost ++ 47 :: escape q encoding.encodePath).getLast? ≠ some 63 :=
    getLast?_ne_of_not_mem _ _ h63
  have hpre : (utf8 "/").isPrefixOf (slashHost ++ 47 :: escape q encoding.encodePath) = true := by
    have : utf8 "/" = [47] := by decide
    simp [this, slashHost_eq, List.isPrefixOf]
  unfold Parse
  rw [Cut_of_not_mem _ _ h35]
  simp only [if_true]
  unfold parse
  simp only [hctl, hne, Bool.false_eq_true, if_false, hg]
  unfold parseQuery
  simp only [hlast, decide_False, Bool.false_and, Bool.false_eq_true, if_false,
    Cut_of_not_mem _ _ h63]
  unfold parseRest
  simp only [hpre, Bool.not_true, Bool.false_eq_true, if_false]
  rw [parseFromAuthority_host rt _ q hq]

theorem Parse_valid (rt : Runtime) (s q : Bytes) (hs : acceptedScheme s = true)
    (hq : ∀ b ∈ q, b < 256) :
    Parse rt (schemePart s ++ slashHost ++ 47 :: escape q encoding.encodePath) =
      .ok { Scheme := toLowerASCII s, Host := utf8 "a.wykop.pl", Path := 47 :: q } := by
  by_cases hsne : s = []
  · subst hsne
    have hg : getScheme (schemePart [] ++ slashHost ++ 47 :: escape q encoding.encodePath) =
        .ok ([], slashHost ++ 47 :: escape q encoding.encodePath) := by
      have : schemePart [] ++ slashHost ++ 47 :: escape q encoding.encodePath =
          47 :: ([47, 97, 46, 119, 121, 107, 111, 112, 46, 112, 108] ++
            47 :: escape q encoding.encodePath) := by
        simp [schemePart, slashHost_eq]
      rw [this, getScheme_slash]
      simp [slashHost_eq]
    have := Parse_host rt (schemePart []) [] q (by simp [schemePart]) hg hq
    simpa using this
  · have hv : validScheme s = true := by
      simpa [acceptedScheme, hsne] using hs
    have hsp : schemePart s = s ++ [58] := by simp [schemePart, hsne]
    have hx : ∀ b ∈ schemePart s, b ≠ 35 ∧ b ≠ 63 ∧ 32 ≤ b ∧ b ≠ 127 := by
      intro b hb
      rw [hsp] at hb
      rcases List.mem_append.1 hb with h | h
      · exact validScheme_bytes s hv b h
      · simp only [List.mem_singleton] at h
        subst h
        decide
    have hg : getScheme (schemePart s ++ slashHost ++ 47 :: escape q encoding.encodePath) =
        .ok (s, slashHost ++ 47 :: escape q encoding.encodePath) := by
      have := getScheme_valid s (slashHost ++ 47 :: escape q encoding.encodePath) hv
      rw [hsp]
      simpa using this
    exact Parse_host rt (schemePart s) s q hx hg hq

theorem cons_dropSlash (p : Bytes) : 47 :: dropSlash p = withLeadingSlash p := by
  cases p with
  | nil => rfl
  | cons c cs =>
    by_cases hc : c = 47
    · simp [dropSlash, withLeadingSlash, hc]
    · simp [dropSlash, withLeadingSlash, hc]

theorem dropSlash_lt (p : Bytes) (hp : ∀ b ∈ p, b < 256) : ∀ b ∈ dropSlash p, b < 256 := by
  intro b hb
  unfold dropSlash at hb
  split at hb
  · exact hp b (List.mem_of_mem_tail hb)
  · exact hp b hb

theorem BenignTail_escape (q : Bytes) (hq : ∀ b ∈ q, b < 256) :
    BenignTail (escape q encoding.encodePath) :=
  ⟨escape_benign q hq, unescapeCheck_escape q hq⟩

/-- The path of a request always has a slash in it. -/
theorem slash_mem_BuildPath (r : Request) : (47 : Nat) ∈ utf8 r.BuildPath := by
  have h : ∃ rest, pathParts r = r.Resource :: r.Method :: rest := by
    rw [pathParts_eq]
    exact ⟨_, rfl⟩
  obtain ⟨rest, hrest⟩ := h
  have hs : utf8 "/" = [47] := by decide
  simp [Request.BuildPath, hrest, Join, utf8_append, hs]

/-- The string of `BuildURL`: the scheme part, `//a.wykop.pl`, a slash, and
the escaped path without its own leading slash. -/
theorem String_BuildURL (rt : Runtime) (r : Request) :
    (r.BuildURL rt).String =
      schemePart (utf8 rt.Scheme) ++ slashHost ++
        47 :: escape (dropSlash (utf8 r.BuildPath)) encoding.encodePath := by
  have hmem := slash_mem_BuildPath r
  apply URL_String_form
  · intro h
    rw [h] at hmem
    cases hmem
  · intro h
    rw [h] at hmem
    simp at hmem

/-- Whether `url.Parse` accepts the string of `BuildURL` depends on the scheme
only, not on the path of the request. -/
theorem succeeds_Parse_BuildURL (rt : Runtime) (r : Request) :
    succeeds (Parse rt (r.BuildURL rt).String) =
      succeeds (Parse rt (schemePart (utf8 rt.Scheme) ++ slashHost ++ [47])) := by
  rw [String_BuildURL]
  exact succeeds_Parse_tail rt _ _
    (BenignTail_escape _ (dropSlash_lt _ (utf8_lt _)))

theorem succeeds_NewRequest (rt : Runtime) (method : String) (url : Bytes) :
    succeeds (NewRequest rt method url) =
      (validMethod (if method = "" then "GET" else method) && succeeds (Parse rt url)) := by
  unfold NewRequest
  cases hv : validMethod (if method = "" then "GET" else method)
  · simp only [hv, succeeds]
    rfl
  · cases hp : Parse rt url <;> simp only [hv, hp] <;> rfl

/-- Whether `Build` succeeds depends on the request only through `Resource`,
`RequestMethod` and `Method`. -/
theorem succeeds_Build_congr (rt : Runtime) (r1 r2 : Request)
    (h1 : r1.Resource = r2.Resource) (h2 : r1.RequestMethod = r2.RequestMethod)
    (h3 : r1.Method = r2.Method) :
    succeeds (r1.Build rt) = succeeds (r2.Build rt) := by
  unfold Request.Build
  rw [h1, h2, h3]
  split
  · rfl
  · simp only [succeeds_NewRequest, succeeds_Parse_BuildURL]

/-! ## The claims -/

/-- C1: for every request, `BuildPath` is the slash-join of resource, method,
the values of the method params in list order and, when it is not empty, the
comma-join of the flattened names and values of the api params; a request
that agrees on these (whatever its method param names, `PostParams`,
`RequestMethod` and `UserAuth`) renders the same path. -/
theorem BuildPath_eq_specPath (r : Request) :
    r.BuildPath = specPath r ∧
    ∀ r2 : Request, r2.Resource = r.Resource → r2.Method = r.Method →
      r2.MethodParams.map Param.Value = r.MethodParams.map Param.Value →
      r2.ApiParams = r.ApiParams → r2.BuildPath = r.BuildPath := by
  refine ⟨BuildPath_specPath r, ?_⟩
  intro r2 h1 h2 h3 h4
  rw [BuildPath_specPath r2, BuildPath_specPath r]
  simp [specPath, specApiBlob, h1, h2, h3, h4]

/-- C2: once `Do` has returned, with success or with any error, the api params
of the request are the old ones followed by `appkey` with the client's app
key, and then by `userkey` with the client's user key exactly when the request
requires user auth. -/
theorem Do_appends_auth_params {D : Type} (rt : Runtime) (decode : Decoder D) (c : Client)
    (r : Request) (resp : Option D) :
    (c.Do rt decode r resp).request.ApiParams =
      r.ApiParams ++
        (if r.UserAuth then [Param.mk "appkey" c.appKey, Param.mk "userkey" c.userKey]
         else [Param.mk "appkey" c.appKey]) := by
  rw [Do_request, authInjected_eq]

/-- C3: a request with an empty `Resource`, `RequestMethod` or `Method` makes
`Build` return no transport request and `ErrWrongRequest`, and makes `Do`
return that same error with no transport request handed to the HTTP executor. -/
theorem Build_empty_field_ErrWrongRequest (rt : Runtime) (r : Request)
    (h : r.Resource = "" ∨ r.RequestMethod = "" ∨ r.Method = "") :
    r.Build rt = .error ErrWrongRequest ∧
    ∀ (D : Type) (decode : Decoder D) (c : Client) (resp : Option D),
      (c.Do rt decode r resp).err = some ErrWrongRequest ∧
      (c.Do rt decode r resp).sent = [] := by
  have hb : ∀ q : Request, q.Resource = r.Resource → q.RequestMethod = r.RequestMethod →
      q.Method = r.Method → q.Build rt = .error ErrWrongRequest := by
    intro q h1 h2 h3
    unfold Request.Build
    rw [h1, h2, h3]
    rcases h with h | h | h <;> simp [h]
  refine ⟨hb r rfl rfl rfl, ?_⟩
  intro D decode c resp
  have hq : (authInjected c r).Build rt = .error ErrWrongRequest := by
    apply hb <;> rw [authInjected_eq]
  rw [Do_eq_doFromBuild]
  unfold doFromBuild
  rw [hq]
  exact ⟨rfl, rfl⟩

/-- Witness of C3: the request of the package's first test without its method. -/
theorem Build_empty_field_ErrWrongRequest_witness :
    (({ RequestMethod := "GET", Resource := "links" } : Request).Method = "") ∧
    ({ RequestMethod := "GET", Resource := "links" } : Request).Build sampleRuntime
      = .error ErrWrongRequest :=
  ⟨rfl, (Build_empty_field_ErrWrongRequest sampleRuntime
    { RequestMethod := "GET", Resource := "links" } (Or.inr (Or.inr rfl))).1⟩

/-- C4, counterexample: with its three required fields filled in, `Build`
still fails on the method `GET POST`, which `http.NewRequest` refuses, and
under the scheme `:`, which `url.Parse` refuses; and where it succeeds the URL
of the request does not carry the scheme and `BuildPath` as they stand: under
the scheme `HTTPS` it has the scheme `https`, and for the path
`links/promoted` it has the path `/links/promoted`. -/
theorem Build_fails_or_rewrites_url :
    (({ RequestMethod := "GET POST", Resource := "links", Method := "promoted" } :
        Request).Resource ≠ "" ∧
      ({ RequestMethod := "GET POST", Resource := "links", Method := "promoted" } :
        Request).RequestMethod ≠ "" ∧
      ({ RequestMethod := "GET POST", Resource := "links", Method := "promoted" } :
        Request).Method ≠ "") ∧
    (∀ rt : Runtime,
      ({ RequestMethod := "GET POST", Resource := "links", Method := "promoted" } :
        Request).Build rt = .error (Error.invalidMethod "GET POST")) ∧
    ({ RequestMethod := "GET", Resource := "links", Method := "promoted" } : Request).Build
        { sampleRuntime with Scheme := ":" } =
      .error (Error.urlError "parse" (utf8 ":://a.wykop.pl/links/promoted")
        URLErr.missingScheme) ∧
    ({ RequestMethod := "GET", Resource := "links", Method := "promoted" } : Request).Build
        { sampleRuntime with Scheme := "HTTPS" } =
      .ok { Method := "GET",
            URL := { Scheme := utf8 "https", Host := utf8 "a.wykop.pl",
                     Path := utf8 "/links/promoted" },
            Host := utf8 "a.wykop.pl" } ∧
    ({ RequestMethod := "GET", Resource := "links", Method := "promoted" } :
        Request).BuildPath = "links/promoted" := by
  refine ⟨by decide, fun rt => rfl, ?_, ?_, ?_⟩
  · decide
  · decide
  · decide

/-- C4, amended: for a request whose `Resource`, `RequestMethod` and `Method`
are all non-empty, whose `RequestMethod` is a valid HTTP method token, under a
package-level `Scheme` that is empty or a valid URL scheme, `Build` succeeds, and the
URL of the transport request has the host `a.wykop.pl`, the package-level
`Scheme` in lower case and the path `BuildPath` with a leading slash (put in
front when `BuildPath` does not start with one), and nothing else. -/
theorem Build_ok_of_valid_method (rt : Runtime) (r : Request)
    (hres : r.Resource ≠ "") (hreq : r.RequestMethod ≠ "") (hmet : r.Method ≠ "")
    (hvalid : validMethod r.RequestMethod = true)
    (hscheme : acceptedScheme (utf8 rt.Scheme) = true) :
    r.Build rt =
      .ok { Method := r.RequestMethod,
            URL := { Scheme := toLowerASCII (utf8 rt.Scheme), Host := utf8 "a.wykop.pl",
                     Path := withLeadingSlash (utf8 r.BuildPath) },
            Host := utf8 "a.wykop.pl" } ∧
    r.BuildPath = specPath r := by
  refine ⟨?_, BuildPath_specPath r⟩
  have hb : r.Build rt = NewRequest rt r.RequestMethod (r.BuildURL rt).String := by
    unfold Request.Build
    simp [hres, hreq, hmet]
  rw [hb, String_BuildURL]
  unfold NewRequest
  have hport : removeEmptyPort (utf8 "a.wykop.pl") = utf8 "a.wykop.pl" := by decide
  simp only [hreq, if_false, hvalid, Bool.not_true, Bool.false_eq_true,
    Parse_valid rt (utf8 rt.Scheme) (dropSlash (utf8 r.BuildPath)) hscheme
      (dropSlash_lt _ (utf8_lt _)), hport, cons_dropSlash]

/-- Witness of C4 (amended): the request of the package's first test under
the sample runtime. -/
theorem Build_ok_of_valid_method_witness :
    ({ RequestMethod := "GET", Resource := "links", Method := "promoted" } : Request).Build
        sampleRuntime
      = .ok { Method := "GET",
              URL := { Scheme := toLowerASCII (utf8 "https"), Host := utf8 "a.wykop.pl",
                       Path := withLeadingSlash (utf8 "links/promoted") },
              Host := utf8 "a.wykop.pl" } :=
  (Build_ok_of_valid_method sampleRuntime
    { RequestMethod := "GET", Resource := "links", Method := "promoted" }
    (by decide) (by decide) (by decide) (by decide) (by decide)).1

theorem authInjected_promoted_BuildPath (page : Int) (sort : PromotedSort) (c : Client) :
    (authInjected c (promotedRequest page sort)).BuildPath =
      "links/promoted/page," ++ Itoa page ++ ",sort," ++ sort ++ ",appkey," ++ c.appKey := by
  simp only [authInjected_eq, promotedRequest, Request.BuildPath]
  rw [pathParts_eq]
  simp only [apiParamsSegment, apiParts, Join, List.foldl, List.map, List.nil_append,
    List.cons_append, List.append_assoc, if_neg (List.cons_ne_nil _ _)]
  apply String.ext
  simp only [String.data_append, List.append_assoc]
  rfl

theorem authInjected_index_BuildPath (id : Int) (c : Client) :
    (authInjected c (indexRequest id)).BuildPath =
      "link/index/" ++ Itoa id ++ "/appkey," ++ c.appKey ++ ",userkey," ++ c.userKey := by
  simp only [authInjected_eq, indexRequest, Request.BuildPath]
  rw [pathParts_eq]
  simp only [apiParamsSegment, apiParts, Join, List.foldl, List.map, List.nil_append,
    List.cons_append, List.append_assoc, if_neg (List.cons_ne_nil _ _), if_true]
  apply String.ext
  simp only [String.data_append, List.append_assoc]
  rfl

theorem Build_ok_Method (rt : Runtime) (r : Request) (req : HttpRequest)
    (h : r.Build rt = .ok req) : req.Method = r.RequestMethod := by
  unfold Request.Build at h
  split at h
  · cases h
  · rename_i hne
    have hm : r.RequestMethod ≠ "" := by
      intro hm
      apply hne
      simp [hm]
    unfold NewRequest at h
    simp only [if_neg hm] at h
    split at h
    · cases h
    · split at h
      · cases h
      · cases h
        rfl

theorem doFromBuild_sent {D : Type} (rt : Runtime) (decode : Decoder D) (c : Client)
    (r : Request) (resp : Option D) (req : HttpRequest)
    (h : req ∈ (doFromBuild rt decode c r resp).sent) : r.Build rt = .ok req := by
  unfold doFromBuild at h
  split at h
  · simp at h
  · rename_i req2 hb
    have hreq : req = req2 := by
      split at h
      · simpa using h
      · split at h <;> simpa using h
    rw [hreq, hb]

/-- C5, counterexample: at app key `app` the path that
`Promoted(1, PromotedByDay)` renders after
auth injection is `links/promoted/page,1,sort,day,appkey,app`, which is not
`links/promoted/appkey,app`. -/
theorem Promoted_path_not_bare_appkey :
    (∀ (Link : Type) (rt : Runtime) (decode : Decoder (List Link))
        (exec : HttpRequest → Except Error Response),
        (resLinks.Promoted rt decode (New rt "app" "user" exec) 1 PromotedByDay).request.BuildPath
          = "links/promoted/page,1,sort,day,appkey,app") ∧
    (∀ (Link : Type) (rt : Runtime) (decode : Decoder (List Link))
        (exec : HttpRequest → Except Error Response),
        (resLinks.Promoted rt decode (New rt "app" "user" exec) 1 PromotedByDay).request.BuildPath
          ≠ "links/promoted/appkey,app") := by
  have h : ∀ (Link : Type) (rt : Runtime) (decode : Decoder (List Link))
      (exec : HttpRequest → Except Error Response),
      (resLinks.Promoted rt decode (New rt "app" "user" exec) 1 PromotedByDay).request.BuildPath
        = "links/promoted/page,1,sort,day,appkey,app" := by
    intro Link rt decode exec
    unfold resLinks.Promoted
    rw [Do_request, authInjected_promoted_BuildPath]
    rfl
  refine ⟨h, ?_⟩
  intro Link rt decode exec
  rw [h]
  decide

/-- C5, amended: for every client built with app key K and user key U, the
request that `Links().Promoted(1, PromotedByDay)` builds and passes through
`Do` has the rendered path `links/promoted/page,1,sort,day,appkey,K`: its api
params are page, sort and appkey, with no userkey because `Promoted` requires
no user auth. -/
theorem Promoted_path (K U : String) (Link : Type) (rt : Runtime)
    (decode : Decoder (List Link)) (exec : HttpRequest → Except Error Response) :
    (resLinks.Promoted rt decode (New rt K U exec) 1 PromotedByDay).request.BuildPath
      = "links/promoted/page,1,sort,day,appkey," ++ K ∧
    (resLinks.Promoted rt decode (New rt K U exec) 1 PromotedByDay).request.ApiParams
      = [Param.mk "page" "1", Param.mk "sort" "day", Param.mk "appkey" K] ∧
    (resLinks.Promoted rt decode (New rt K U exec) 1 PromotedByDay).request.UserAuth = false := by
  unfold resLinks.Promoted
  rw [Do_request]
  refine ⟨?_, ?_, ?_⟩
  · rw [authInjected_promoted_BuildPath]
    apply String.ext
    simp only [String.data_append, List.append_assoc]
    rfl
  · rw [authInjected_eq]
    rfl
  · rw [authInjected_eq]
    rfl

/-- C6: for every client built with app key K and user key U and every
integer id, the request that `Link().Index(id)` builds and passes through `Do`
is a GET that requires user auth, every transport request it hands to the
executor is a GET, and its rendered path after auth injection is
`link/index/<decimal id>/appkey,K,userkey,U`; for id 10 that is
`link/index/10/appkey,K,userkey,U`. -/
theorem Index_path (K U : String) (id : Int) (Link : Type) (rt : Runtime)
    (decode : Decoder (Option Link)) (exec : HttpRequest → Except Error Response) :
    (resLinks.Index rt decode (New rt K U exec) id).request.BuildPath
      = "link/index/" ++ Itoa id ++ "/appkey," ++ K ++ ",userkey," ++ U ∧
    (resLinks.Index rt decode (New rt K U exec) id).request.RequestMethod = "GET" ∧
    (resLinks.Index rt decode (New rt K U exec) id).request.UserAuth = true ∧
    (∀ req ∈ (resLinks.Index rt decode (New rt K U exec) id).sent, req.Method = "GET") ∧
    (resLinks.Index rt decode (New rt K U exec) 10).request.BuildPath
      = "link/index/10/appkey," ++ K ++ ",userkey," ++ U := by
  unfold resLinks.Index
  refine ⟨?_, ?_, ?_, ?_, ?_⟩
  · rw [Do_request, authInjected_index_BuildPath]
    rfl
  · rw [Do_request, authInjected_eq]
    rfl
  · rw [Do_request, authInjected_eq]
    rfl
  · intro req hreq
    rw [Do_eq_doFromBuild] at hreq
    have hb := doFromBuild_sent _ _ _ _ _ _ hreq
    rw [Build_ok_Method _ _ _ hb, authInjected_eq]
    rfl
  · rw [Do_request, authInjected_index_BuildPath]
    apply String.ext
    simp only [String.data_append, List.append_assoc]
    rfl

/-- C7: when `Build` succeeds on the request and the HTTP executor answers
every transport request with a response and no error, `Do` with the nil
destination hands exactly one transport request to the executor, the one
`Build` makes after the auth params are appended, and returns the nil error
whatever the body is: the body is closed once and never given to the decoder,
and the destination stays nil. -/
theorem Do_nil_destination {D : Type} (rt : Runtime) (decode : Decoder D) (c : Client)
    (r : Request) (req0 : HttpRequest) (answer : HttpRequest → Response)
    (hbuild : r.Build rt = .ok req0)
    (hexec : ∀ req, c.httpClient req = .ok (answer req)) :
    ∃ req, (c.Do rt decode r none).sent = [req] ∧
      (c.Do rt decode r none).request.Build rt = .ok req ∧
      req.Method = r.RequestMethod ∧
      (c.Do rt decode r none).err = none ∧
      (c.Do rt decode r none).decoded = 0 ∧
      (c.Do rt decode r none).closed = 1 ∧
      (c.Do rt decode r none).resp = none := by
  have hs : succeeds ((authInjected c r).Build rt) = true := by
    rw [succeeds_Build_congr rt (authInjected c r) r (by rw [authInjected_eq])
      (by rw [authInjected_eq]) (by rw [authInjected_eq]), hbuild]
    rfl
  cases hb : (authInjected c r).Build rt with
  | error e =>
    rw [hb] at hs
    cases hs
  | ok req =>
    refine ⟨req, ?_⟩
    have hm : req.Method = r.RequestMethod := by
      rw [Build_ok_Method rt _ req hb, authInjected_eq]
    have hreq : (c.Do rt decode r none).request.Build rt = .ok req := by
      rw [Do_request, hb]
    refine ⟨?_, hreq, hm, ?_⟩
    · rw [Do_eq_doFromBuild]
      unfold doFromBuild
      rw [hb]
      simp only [hexec req]
    · rw [Do_eq_doFromBuild]
      unfold doFromBuild
      rw [hb]
      simp only [hexec req]
      simp

/-- Witness of C7: the package's first test, a GET of links/promoted with the
nil destination against an executor that answers with an empty body. -/
theorem Do_nil_destination_witness :
    ∃ req,
      (({ appKey := "app", userKey := "user", httpClient := fun _ => .ok { Body := "" } } :
          Client).Do sampleRuntime (fun (_ : String) (d : Unit) => (d, none))
          { RequestMethod := "GET", Resource := "links", Method := "promoted" } none).sent
        = [req] ∧
      req.Method = "GET" ∧
      (({ appKey := "app", userKey := "user", httpClient := fun _ => .ok { Body := "" } } :
          Client).Do sampleRuntime (fun (_ : String) (d : Unit) => (d, none))
          { RequestMethod := "GET", Resource := "links", Method := "promoted" } none).err
        = none :=
  have h := Do_nil_destination sampleRuntime (fun (_ : String) (d : Unit) => (d, none))
    { appKey := "app", userKey := "user", httpClient := fun _ => .ok { Body := "" } }
    { RequestMethod := "GET", Resource := "links", Method := "promoted" }
    { Method := "GET",
      URL := { Scheme := utf8 "https", Host := utf8 "a.wykop.pl",
               Path := utf8 "/links/promoted" },
      Host := utf8 "a.wykop.pl" }
    (fun _ => { Body := "" }) (by decide) (fun _ => rfl)
  h.elim fun req hreq => ⟨req, hreq.1, hreq.2.2.1, hreq.2.2.2.1⟩

/-- C8: `Name` and `Color` each return a string on the seven mapped codes 0,
1, 2, 5, 1001, 1002, 2001 and each end in the `unknown group` panic on every
other code; neither returns a value for an unmapped code, and the two are
defined on the same codes. -/
theorem Color_Name_defined_exactly_on_mapped (u : UserGroup) :
    mappedGroups = [0, 1, 2, 5, 1001, 1002, 2001] ∧
    (u ∈ mappedGroups →
      (∃ s, UserGroup.Color u = .ok s) ∧ (∃ t, UserGroup.Name u = .ok t)) ∧
    (u ∉ mappedGroups →
      UserGroup.Color u = .error "unknown group" ∧
      UserGroup.Name u = .error "unknown group") ∧
    ((∃ s, UserGroup.Color u = .ok s) ↔ (∃ t, UserGroup.Name u = .ok t)) := by
  have hin : u ∈ mappedGroups →
      (∃ s, UserGroup.Color u = .ok s) ∧ (∃ t, UserGroup.Name u = .ok t) := by
    intro h
    simp only [mappedGroups, List.mem_cons, List.mem_singleton, List.not_mem_nil,
      or_false] at h
    rcases h with h | h | h | h | h | h | h <;> subst h <;> exact ⟨⟨_, rfl⟩, ⟨_, rfl⟩⟩
  have hout : u ∉ mappedGroups →
      UserGroup.Color u = .error "unknown group" ∧
      UserGroup.Name u = .error "unknown group" := by
    intro h
    simp only [mappedGroups, List.mem_cons, List.mem_singleton, List.not_mem_nil,
      or_false, not_or] at h
    obtain ⟨h0, h1, h2, h3, h4, h5, h6⟩ := h
    simp only [UserGroup.Color, UserGroup.Name, if_neg h0, if_neg h1, if_neg h2, if_neg h3,
      if_neg h4, if_neg h5, if_neg h6, and_self]
  refine ⟨rfl, hin, hout, ?_⟩
  by_cases h : u ∈ mappedGroups
  · exact ⟨fun _ => (hin h).2, fun _ => (hin h).1⟩
  · constructor
    · rintro ⟨s, hs⟩
      rw [(hout h).1] at hs
      cases hs
    · rintro ⟨t, ht⟩
      rw [(hout h).2] at ht
      cases ht

/-- C9: the parts joined by `BuildPath` are resource, method and the method
param values, followed by the api segment exactly when `ApiParams` is a
non-empty list, so their number is 2 + len(MethodParams) + (1 if
len(ApiParams) > 0 else 0); one api param with empty name and value still
gives the segment `,`; and the request that `Do` leaves always has the
segment. -/
theorem pathParts_api_segment_iff (r : Request) :
    r.BuildPath = Join (pathParts r) "/" ∧
    (pathParts r =
        [r.Resource, r.Method] ++ r.MethodParams.map Param.Value ++ [apiParamsSegment r]
      ↔ r.ApiParams ≠ []) ∧
    (pathParts r = [r.Resource, r.Method] ++ r.MethodParams.map Param.Value
      ↔ r.ApiParams = []) ∧
    (pathParts r).length =
      2 + r.MethodParams.length + (if r.ApiParams.length > 0 then 1 else 0) ∧
    pathParts { r with ApiParams := [Param.mk "" ""] } =
      [r.Resource, r.Method] ++ r.MethodParams.map Param.Value ++ [","] ∧
    ∀ (D : Type) (rt : Runtime) (decode : Decoder D) (c : Client) (resp : Option D),
      pathParts (c.Do rt decode r resp).request =
        [r.Resource, r.Method] ++ r.MethodParams.map Param.Value ++
          [apiParamsSegment (c.Do rt decode r resp).request] := by
  have hlen : ∀ (l : List String) (x : String), l ++ [x] ≠ l := by
    intro l x h
    have := congrArg List.length h
    simp at this
  refine ⟨rfl, ?_, ?_, ?_, ?_, ?_⟩
  · rw [pathParts_eq]
    by_cases h : r.ApiParams = []
    · simp [h]
    · simp [h]
  · rw [pathParts_eq]
    by_cases h : r.ApiParams = []
    · simp [h]
    · simp [h]
  · rw [pathParts_eq]
    by_cases h : r.ApiParams = []
    · simp [h]
      omega
    · have hpos : r.ApiParams.length > 0 := List.length_pos.2 h
      simp [h, hpos]
      omega
  · rw [pathParts_eq]
    rfl
  · intro D rt decode c resp
    rw [Do_request, pathParts_eq, authInjected_eq]
    cases hu : r.UserAuth <;> simp

/-- C10: on the seven mapped codes `Name` is injective, while `Color` is not:
green and orange share `#339933`, banned and deleted share `#999999`, and no
other two distinct mapped codes share a color. -/
theorem Name_injective_Color_two_pairs :
    (∀ u ∈ mappedGroups, ∀ v ∈ mappedGroups,
      UserGroup.Name u = UserGroup.Name v → u = v) ∧
    UserGroup.Color GroupGreen = .ok "#339933" ∧
    UserGroup.Color GroupOrange = .ok "#339933" ∧
    UserGroup.Color GroupBanned = .ok "#999999" ∧
    UserGroup.Color GroupDeleted = .ok "#999999" ∧
    (∀ u ∈ mappedGroups, ∀ v ∈ mappedGroups, u ≠ v →
      UserGroup.Color u = UserGroup.Color v →
        (u = GroupGreen ∧ v = GroupOrange) ∨ (u = GroupOrange ∧ v = GroupGreen) ∨
        (u = GroupBanned ∧ v = GroupDeleted) ∨ (u = GroupDeleted ∧ v = GroupBanned)) := by
  refine ⟨?_, rfl, rfl, rfl, rfl, ?_⟩
  · decide
  · decide

end Wykop
